import Mathlib

/-!
# Campus-Backend news ingestion (`server/backend/cron/news.go`)

A shallow embedding of the news cron job: the Go library pieces it relies on
(`null`, `gofeed`, `regexp`, `strings`, `gorm`) are modelled first, then the
functions of `news.go` are transcribed one by one, and finally the properties
of the specification are stated and proved about them.

Modelling conventions.
* Go strings are Lean strings (sequences of Unicode scalar values); every
  pattern and suffix used by the program is ASCII, so matching on characters
  and matching on UTF-8 bytes coincide.
* The database is an explicit `World`; every gorm call consumes one entry of
  the fault stream `World.faults`, `true` meaning that this call returns a
  database error.  An exhausted stream means that no further call fails.
* The schema of the tables is not part of `news.go`.  The unique index of the
  table `news` over source and link is taken from the specification
  (`uniqueLinkPerSource`); the batch insert is refused when it would break it.
* Logging is not modelled.
-/

set_option linter.dupNamespace false

namespace Campus

/-! ## Library types -/

/-- Points in time (`time.Time`), as seconds on some fixed scale. -/
abbrev Time := Int

/-- The type `null.String` of `guregu/null`: a string and its validity flag. -/
structure NullString where
  String : String
  Valid : Bool
deriving DecidableEq, Repr

/-- The type `null.Int` of `guregu/null`. -/
structure NullInt where
  Int64 : Int
  Valid : Bool
deriving DecidableEq, Repr

/-- The type `null.Bool` of `guregu/null`. -/
structure NullBool where
  Valid : Bool
  Bool : Bool
deriving DecidableEq, Repr

/-- The constructor `null.StringFrom`: a valid string. -/
def StringFrom (s : String) : NullString := ⟨s, true⟩

/-- The constructor `null.IntFrom`: a valid integer. -/
def IntFrom (i : Int) : NullInt := ⟨i, true⟩

/-- The constructor `null.BoolFrom`: a valid boolean. -/
def BoolFrom (b : Bool) : NullBool := ⟨true, b⟩

/-- The zero value of `null.String` (SQL NULL). -/
def NullString.null : NullString := ⟨"", false⟩

/-- The zero value of `null.Int` (SQL NULL). -/
def NullInt.null : NullInt := ⟨0, false⟩

/-- An enclosure of a feed item, `gofeed.Enclosure`; `Type_` is the Go field
`Type`, the declared content type. -/
structure Enclosure where
  URL : String
  Length : String
  Type_ : String
deriving DecidableEq, Repr

/-- A feed item, `gofeed.Item`, restricted to the fields `news.go` reads or
writes.  `PublishedParsed` is a `*time.Time` in Go: `none` is the nil pointer. -/
structure Item where
  Title : String
  Description : String
  Content : String
  Link : String
  PublishedParsed : Option Time
  Enclosures : List Enclosure
deriving DecidableEq, Repr

/-- A parsed feed, `gofeed.Feed`. -/
structure Feed where
  Items : List Item
deriving DecidableEq, Repr

/-- Errors returned by the libraries. -/
inductive GoError
  | ErrRecordNotFound
  | ErrDatabase
  | ErrFeed
deriving DecidableEq, Repr

/-! ## Database rows (`model.File`, `model.NewsSource`, `model.News`) -/

/-- A row of the table `files`; the field `File` is the primary key. -/
structure File where
  File : Int
  Name : String
  Path : String
  URL : NullString
  Downloaded : NullBool
deriving DecidableEq, Repr

/-- A row of the table `news_source`; the field `Source` is the primary key. -/
structure NewsSource where
  Source : Int
  Title : String
  URL : NullString
  Hook : NullString
deriving DecidableEq, Repr

/-- A row of the table `news`; the field `News` is the primary key and
`NewsSourceID` is the column `src`. -/
structure News where
  News : Int
  Date : Time
  Created : Time
  Title : String
  Description : String
  NewsSourceID : Int
  NewsSource : NewsSource
  Link : String
  Image : NullString
  FileID : NullInt
  File : Option File
deriving DecidableEq, Repr

/-! ## Regular expressions (`regexp`)

Only the constructs that occur in the patterns of `news.go` are modelled:
literal characters, `.`, bracket classes and the greedy `+` of a single
character matcher. -/

/-- A matcher for exactly one character. -/
inductive Single
  | lit (c : Char)
  | any
  | cls (ranges : List (Char × Char))
deriving DecidableEq, Repr

/-- Whether a one-character matcher accepts a character: a literal accepts
itself, `.` accepts everything but a newline, and a bracket class accepts the
characters of one of its inclusive ranges. -/
def Single.accepts : Single → Char → Bool
  | .lit a, c => c == a
  | .any, c => c != '\n'
  | .cls rs, c => rs.any fun r => decide (r.1 ≤ c ∧ c ≤ r.2)

/-- One element of a pattern: a one-character matcher, alone or under `+`. -/
inductive Piece
  | one (s : Single)
  | plus (s : Single)
deriving DecidableEq, Repr

/-- A compiled pattern: the concatenation of its pieces. -/
abbrev Regexp := List Piece

/-- The pieces of a run of literal characters. -/
def lits (s : String) : Regexp := s.data.map fun c => Piece.one (Single.lit c)

/-- Greedy repetition `s+` followed by the continuation `k`: after one accepted
character, another round of the repetition is preferred to leaving it. The
result is the matched text. -/
def plusLoop (s : Single) (k : List Char → Option (List Char)) :
    List Char → Option (List Char)
  | [] => none
  | c :: cs =>
    if s.accepts c then
      (match plusLoop s k cs with
        | some m => some m
        | none => k cs).map (c :: ·)
    else none

/-- Match of a pattern anchored at the start of the input, with the priorities
of a backtracking matcher (Go: leftmost-first). Returns the matched text. -/
def matchHere : Regexp → List Char → Option (List Char)
  | [], _ => some []
  | .one _ :: _, [] => none
  | .one s :: ps, c :: cs =>
    if s.accepts c then (matchHere ps cs).map (c :: ·) else none
  | .plus s :: ps, cs => plusLoop s (matchHere ps) cs

/-- The leftmost match of a pattern in the input. -/
def findFirst (re : Regexp) : List Char → Option (List Char)
  | [] => matchHere re []
  | c :: cs =>
    match matchHere re (c :: cs) with
    | some m => some m
    | none => findFirst re cs

/-- All successive non-overlapping matches, scanning left to right; the first
argument counts the characters of the previous match still to be passed. -/
def findAllFrom (re : Regexp) : Nat → List Char → List (List Char)
  | 0, [] =>
    match matchHere re [] with
    | some m => [m]
    | none => []
  | _ + 1, [] => []
  | 0, c :: cs =>
    match matchHere re (c :: cs) with
    | some m => m :: findAllFrom re (m.length - 1) cs
    | none => findAllFrom re 0 cs
  | k + 1, _ :: cs => findAllFrom re k cs

/-- The method `(*Regexp).MatchString`: does the string contain a match? -/
def MatchString (re : Regexp) (s : String) : Bool := (findFirst re s.data).isSome

/-- The method `(*Regexp).FindAllString`: the successive matches, at most `n`
of them when `n ≥ 0`, all of them otherwise. -/
def FindAllString (re : Regexp) (s : String) (n : Int) : List String :=
  let all := (findAllFrom re 0 s.data).map String.mk
  if n < 0 then all else all.take n.toNat

/-- The function `strings.HasSuffix`. -/
def HasSuffix (s suffix : String) : Bool := suffix.data.isSuffixOf s.data

/-- The language of a pattern: the texts it can match, whatever the priority. -/
def Lang : Regexp → List Char → Prop
  | [], m => m = []
  | .one s :: ps, m => ∃ c m', m = c :: m' ∧ s.accepts c = true ∧ Lang ps m'
  | .plus s :: ps, m =>
    ∃ run m', run ≠ [] ∧ (∀ c ∈ run, s.accepts c = true) ∧ m = run ++ m' ∧ Lang ps m'

/-- The text `m` occurs in `s` at offset `i` and is in the language of `re`. -/
def MatchAt (re : Regexp) (s : List Char) (i : Nat) (m : List Char) : Prop :=
  ∃ pre post, s = pre ++ m ++ post ∧ pre.length = i ∧ Lang re m

/-! ## Constants of `news.go` -/

def NewsImageDirectory : String := "news/newspread/"

def NewspreadHook : String := "newspread"

def ImpulsivHook : String := "impulsivHook"

/-- The pattern `image/[a-z.]+`. -/
def ImageContentTypeRegex : Regexp :=
  lits "image/" ++ [.plus (.cls [('a', 'z'), ('.', '.')])]

/-- The pattern of `newspreadHook`,
`https://storage.googleapis.com/tum-newspread-de/assets/[a-z\-0-9]+\.jpeg`:
the dots of the host name are unescaped and match any character. -/
def newspreadRegex : Regexp :=
  lits "https://storage" ++ [.one .any] ++ lits "googleapis" ++ [.one .any] ++
    lits "com/tum-newspread-de/assets/" ++
    [.plus (.cls [('a', 'z'), ('-', '-'), ('0', '9')])] ++ lits ".jpeg"

/-- The pattern `[0-9]+` of `impulsivHook`. -/
def impulsivRegex : Regexp := [.plus (.cls [('0', '9')])]

/-! ## The world: database tables, clock and fault stream -/

/-- The state the cron job acts on. `fileSeq` and `newsSeq` are the last
auto-increment values handed out, `clock` counts the readings of `time.Now`,
and `faults` decides for each coming database call whether it fails. -/
structure World where
  files : List File
  news : List News
  fileSeq : Int
  newsSeq : Int
  clock : Nat
  faults : List Bool
deriving DecidableEq, Repr

/-- The collaborators that are functions: the feed fetcher `gofeed.ParseURL`,
the sanitizer `bluemonday.StrictPolicy().Sanitize`, the hexadecimal rendering
of the MD5 sum of a string, and the wall clock by number of reading. -/
structure Env where
  ParseURL : String → Except GoError Feed
  Sanitize : String → String
  md5hex : String → String
  Now : Nat → Time

/-- Take the verdict for the next database call off the fault stream. -/
def World.popFault (w : World) : Bool × World :=
  match w.faults with
  | [] => (false, w)
  | b :: bs => (b, { w with faults := bs })

/-- The row with the least primary key among the given rows. -/
def leastFile : List File → Option File
  | [] => none
  | r :: rs =>
    match leastFile rs with
    | none => some r
    | some m => if r.File ≤ m.File then some r else some m

/-- The query `db.First(&file, "name = ?", name)`: the row of that name with
the least primary key, `ErrRecordNotFound` when there is none. -/
def dbFirstFileByName (w : World) (name : String) : Except GoError File × World :=
  let (fault, w) := w.popFault
  if fault then (.error .ErrDatabase, w)
  else
    match leastFile (w.files.filter fun r => r.Name = name) with
    | some r => (.ok r, w)
    | none => (.error .ErrRecordNotFound, w)

/-- The call `db.Create(&file)`: the row receives the next primary key and is
appended to the table. -/
def dbCreateFile (w : World) (file : File) : Except GoError File × World :=
  let (fault, w) := w.popFault
  if fault then (.error .ErrDatabase, w)
  else
    let row := { file with File := w.fileSeq + 1 }
    (.ok row, { w with files := w.files ++ [row], fileSeq := w.fileSeq + 1 })

/-- The query selecting the column `link` of the rows of `news` whose column
`src` is the given source. -/
def dbScanLinks (w : World) (src : Int) : Except GoError (List String) × World :=
  let (fault, w) := w.popFault
  if fault then (.error .ErrDatabase, w)
  else (.ok ((w.news.filter fun n => n.NewsSourceID = src).map fun n => n.Link), w)

/-- Number the rows of a batch with consecutive primary keys after `seq`. -/
def assignKeys (seq : Int) : List News → List News
  | [] => []
  | n :: ns => { n with News := seq + 1 } :: assignKeys (seq + 1) ns

/-- Modelled from the spec: the schema of the table `news`, which is missing
from the sources. The specification states that the link of an entry is unique
per source and that the database enforces this by a uniqueness constraint. A
batch passes the constraint when its rows carry pairwise distinct pairs of
source and link, none of which is carried by a stored row. -/
def uniqueLinkPerSource (stored batch : List News) : Bool :=
  decide ((batch.map fun n => (n.NewsSourceID, n.Link)).Nodup ∧
    ∀ n ∈ batch, ∀ m ∈ stored, ¬ (m.NewsSourceID = n.NewsSourceID ∧ m.Link = n.Link))

/-- The call `db.Save(&newNews)` on rows without primary key: one batch insert.
It fails on a database fault and when the batch breaks the uniqueness
constraint of the table; on failure nothing is stored. -/
def dbSaveNews (w : World) (rows : List News) : Option GoError × World :=
  let (fault, w) := w.popFault
  if fault then (some .ErrDatabase, w)
  else if uniqueLinkPerSource w.news rows then
    (none, { w with news := w.news ++ assignKeys w.newsSeq rows,
                    newsSeq := w.newsSeq + rows.length })
  else (some .ErrDatabase, w)

/-! ## The functions of `news.go` -/

/-- The function `skipNews`: true if the link is empty or among the existing
links. -/
def skipNews (existingLinks : List String) (link : String) : Bool :=
  if link = "" then true
  else go existingLinks
where
  /-- The loop over the existing links. -/
  go : List String → Bool
    | [] => false
    | l :: ls => if l = link then true else go ls

/-- The method `newspreadHook`: the enclosures become one enclosure holding
the first image address found in the content, the description is cleared. -/
def newspreadHook (item : Item) : Item :=
  let extractedImageSlice := FindAllString newspreadRegex item.Content 1
  let extractedImageURL :=
    match extractedImageSlice with
    | [] => ""
    | u :: _ => u
  { item with
    Enclosures := [{ URL := extractedImageURL, Length := "", Type_ := "" }]
    Description := "" }

/-- The method `impulsivHook`: a title that is one number becomes
"Impulsiv - Ausgabe " and the number, any other title gets "Impulsiv - "
in front. -/
def impulsivHook (item : Item) : Item :=
  let matches_ := FindAllString impulsivRegex item.Title (-1)
  if matches_.length = 1 ∧ matches_.head? = some item.Title then
    { item with Title := "Impulsiv - Ausgabe " ++ item.Title }
  else
    { item with Title := "Impulsiv - " ++ item.Title }

/-- The hook dispatch at the head of the loop body of `parseNewsFeed`. -/
def applyHook (source : NewsSource) (item : Item) : Item :=
  if source.Hook.Valid then
    if source.Hook.String = NewspreadHook then newspreadHook item
    else if source.Hook.String = ImpulsivHook then impulsivHook item
    else item
  else item

/-- The test of the enclosure loop of `parseNewsFeed`. -/
def isImageEnclosure (enclosure : Enclosure) : Bool :=
  HasSuffix enclosure.URL "jpg" ||
    HasSuffix enclosure.URL "jpeg" ||
    HasSuffix enclosure.URL "png" ||
    MatchString ImageContentTypeRegex enclosure.Type_

/-- The enclosure loop of `parseNewsFeed`: the first enclosure that passes the
test; `none` is the nil pointer. -/
def pickEnclosure : List Enclosure → Option Enclosure
  | [] => none
  | enclosure :: rest =>
    if isImageEnclosure enclosure then some enclosure else pickEnclosure rest

/-- The method `saveImage`: the file row for an image address, found by name
or created. -/
def saveImage (env : Env) (w : World) (url : String) : Except GoError File × World :=
  let targetFileName := env.md5hex url ++ ".jpg"
  match dbFirstFileByName w targetFileName with
  | (.ok file, w) => (.ok file, w)
  | (.error .ErrRecordNotFound, w) =>
    let file : File :=
      { File := 0
        Name := targetFileName
        Path := NewsImageDirectory
        URL := StringFrom url
        Downloaded := BoolFrom false }
    match dbCreateFile w file with
    | (.ok file, w) => (.ok file, w)
    | (.error err, w) => (.error err, w)
  | (.error err, w) => (.error err, w)

/-- The values of `enclosureUrl`, `file` and `fileID` after the image step of
the loop body of `parseNewsFeed`. -/
def resolveImage (env : Env) (w : World) :
    Option Enclosure → (NullString × Option File × NullInt) × World
  | none => ((StringFrom "", none, NullInt.null), w)
  | some pickedEnclosure =>
    match saveImage env w pickedEnclosure.URL with
    | (.ok file, w) =>
      ((StringFrom pickedEnclosure.URL, some file, IntFrom file.File), w)
    | (.error _, w) =>
      ((StringFrom pickedEnclosure.URL, none, NullInt.null), w)

/-- How a run of the loop of `parseNewsFeed` ends: with the accumulated slice
`newNews`, or with the nil-pointer panic of reading `*item.PublishedParsed`. -/
inductive LoopEnd
  | done (newNews : List News)
  | panic (newNews : List News)
deriving DecidableEq, Repr

/-- The loop over the feed items of `parseNewsFeed`. -/
def feedLoop (env : Env) (source : NewsSource) (existingNewsLinksForSource : List String) :
    List Item → World → List News → LoopEnd × World
  | [], w, newNews => (.done newNews, w)
  | item :: rest, w, newNews =>
    let item := applyHook source item
    if skipNews existingNewsLinksForSource item.Link then
      feedLoop env source existingNewsLinksForSource rest w newNews
    else
      let pickedEnclosure := pickEnclosure item.Enclosures
      match resolveImage env w pickedEnclosure with
      | ((enclosureUrl, file, fileID), w) =>
        match item.PublishedParsed with
        | none => (.panic newNews, w)
        | some date =>
          let newsItem : News :=
            { News := 0
              Date := date
              Created := env.Now w.clock
              Title := item.Title
              Description := env.Sanitize item.Description
              NewsSourceID := source.Source
              NewsSource := source
              Link := item.Link
              Image := enclosureUrl
              FileID := fileID
              File := file }
          feedLoop env source existingNewsLinksForSource rest
            { w with clock := w.clock + 1 } (newNews ++ [newsItem])

/-- How a call of `parseNewsFeed` ends: it returns its error value (`none` is
nil) or it panics. -/
inductive Outcome
  | returned (err : Option GoError)
  | panicked
deriving DecidableEq, Repr

/-- The observable record of one call of `parseNewsFeed`: the world it leaves,
the slice `newNews` as it stood when the loop was left, the number of batch
writes issued, and how the call ended. -/
structure Run where
  world : World
  newNews : List News
  batchWrites : Nat
  outcome : Outcome
deriving DecidableEq, Repr

/-- The method `parseNewsFeed`. -/
def parseNewsFeed (env : Env) (source : NewsSource) (w : World) : Run :=
  match env.ParseURL source.URL.String with
  | .error err => ⟨w, [], 0, .returned (some err)⟩
  | .ok feed =>
    let proceed (existing : List String) (w : World) : Run :=
      match feedLoop env source existing feed.Items w [] with
      | (.panic newNews, w) => ⟨w, newNews, 0, .panicked⟩
      | (.done newNews, w) =>
        if newNews.length ≠ 0 then
          match dbSaveNews w newNews with
          | (err, w) => ⟨w, newNews, 1, .returned err⟩
        else ⟨w, newNews, 0, .returned none⟩
    match dbScanLinks w source.Source with
    | (.ok links, w) => proceed links w
    | (.error .ErrRecordNotFound, w) => proceed [] w
    | (.error err, w) => ⟨w, [], 0, .returned (some err)⟩

/-- The links stored for a source: the dedup baseline a run would load. -/
def storedLinks (w : World) (src : Int) : List String :=
  (w.news.filter fun n => n.NewsSourceID = src).map fun n => n.Link

/-! ## Auxiliary notions used in the statements -/

/-- A pattern in which every `+` is directly followed by a literal character
that the repeated matcher rejects: such a pattern has at most one match at a
given offset. -/
def Unambiguous : Regexp → Bool
  | [] => true
  | .one _ :: ps => Unambiguous ps
  | .plus s :: ps =>
    (match ps with
      | .one (.lit c) :: _ => !s.accepts c
      | _ => false) && Unambiguous ps

/-- The text is a non-empty run of the decimal digits `0` to `9`. -/
def IsNumber (t : String) : Prop :=
  t.data ≠ [] ∧ ∀ c ∈ t.data, '0' ≤ c ∧ c ≤ '9'

instance (t : String) : Decidable (IsNumber t) := by
  unfold IsNumber
  infer_instance

/-- The enclosure is accepted as an image: its address ends in `jpg`, `jpeg`
or `png`, or its declared content type contains a match of `image/[a-z.]+`. -/
def AcceptsImage (e : Enclosure) : Prop :=
  "jpg".data <:+ e.URL.data ∨ "jpeg".data <:+ e.URL.data ∨ "png".data <:+ e.URL.data ∨
    ∃ i m, MatchAt ImageContentTypeRegex e.Type_.data i m

/-- The image test as the specification words it, with the dot in the three
suffixes `.jpg`, `.jpeg` and `.png`. -/
def specIsImage (e : Enclosure) : Bool :=
  HasSuffix e.URL ".jpg" || HasSuffix e.URL ".jpeg" || HasSuffix e.URL ".png" ||
    MatchString ImageContentTypeRegex e.Type_

/-- The image selection as the specification words it: the first enclosure
passing `specIsImage`. -/
def specPickImage (enclosures : List Enclosure) : Option Enclosure :=
  enclosures.find? specIsImage

/-- The hook dispatch as the specification words it, with the hook names
"newspread" and "impulsiv". -/
def specApplyHook (source : NewsSource) (item : Item) : Item :=
  if source.Hook.Valid then
    if source.Hook.String = "newspread" then newspreadHook item
    else if source.Hook.String = "impulsiv" then impulsivHook item
    else item
  else item

/-- What a stored entry shows of the feed item it was built from: title,
description, link, image address and source. -/
def newsSummary (n : News) : String × String × String × NullString × Int :=
  (n.Title, n.Description, n.Link, n.Image, n.NewsSourceID)

/-- What `parseNewsFeed` puts into the entry of an item that already went
through the hook dispatch: the title, the sanitized description, the link, the
address of the picked enclosure (empty when none is picked) and the source. -/
def itemSummary (env : Env) (source : NewsSource) (i : Item) :
    String × String × String × NullString × Int :=
  (i.Title, env.Sanitize i.Description, i.Link,
    StringFrom (match pickEnclosure i.Enclosures with
      | none => ""
      | some e => e.URL),
    source.Source)

/-- The items of a feed that a run queues, after the hook dispatch: those whose
link passes the dedup filter for the given baseline. -/
def keptItems (source : NewsSource) (existing : List String) (items : List Item) : List Item :=
  (items.map (applyHook source)).filter fun i => !skipNews existing i.Link

/-- The two worlds hold the same tables, counters and clock; only the fault
stream may differ. -/
def SameTables (w w1 : World) : Prop :=
  w1.files = w.files ∧ w1.news = w.news ∧ w1.fileSeq = w.fileSeq ∧
    w1.newsSeq = w.newsSeq ∧ w1.clock = w.clock

/-- The two worlds hold the same table `news`, with the same counter. -/
def SameNews (w w1 : World) : Prop :=
  w1.news = w.news ∧ w1.newsSeq = w.newsSeq

/-- The file row `saveImage` creates for an address. -/
def newFileRow (env : Env) (w : World) (url : String) : File :=
  { File := w.fileSeq + 1
    Name := env.md5hex url ++ ".jpg"
    Path := NewsImageDirectory
    URL := StringFrom url
    Downloaded := BoolFrom false }

/-- The links of the rows of a given source. -/
def linksOf (rows : List News) (src : Int) : List String :=
  (rows.filter fun n => n.NewsSourceID = src).map fun n => n.Link

/-- The links a run adds to the baseline: those of the feed that are not empty
and not in the baseline, in feed order. -/
def newLinks (baseline : List String) (feed : Feed) : List String :=
  (feed.Items.map fun i => i.Link).filter fun l => decide (l ≠ "" ∧ l ∉ baseline)

/-! ## Concrete data for the examples -/

/-- An empty database with a silent fault stream. -/
def emptyWorld : World := ⟨[], [], 0, 0, 0, []⟩

/-- An environment whose fetcher returns the given feed, with the identity as
sanitizer and as hash rendering. -/
def demoEnv (feed : Feed) : Env := ⟨fun _ => .ok feed, id, id, fun n => n⟩

/-- A source with identifier 1 and the given hook column. -/
def demoSource (hook : NullString) : NewsSource :=
  ⟨1, "Demo", StringFrom "https://example.org/feed", hook⟩

/-- A published feed item with the given title, link and enclosures. -/
def demoItem (title link : String) (enclosures : List Enclosure) : Item :=
  ⟨title, "text", "body", link, some 1700000000, enclosures⟩

/-- A feed whose two items carry the same link. -/
def twiceFeed : Feed :=
  ⟨[demoItem "First" "http://b" [], demoItem "Second" "http://b" [⟨"http://img/x.jpg", "", ""⟩]]⟩

/-- A feed with an item without link and two items with distinct links. -/
def plainFeed : Feed :=
  ⟨[demoItem "Zero" "" [], demoItem "First" "http://b" [],
    demoItem "Second" "http://c" [⟨"http://img/x.jpg", "", ""⟩]]⟩

/-- A feed whose only item is titled with a number. -/
def issueFeed : Feed := ⟨[demoItem "123" "http://b" []]⟩

/-- A feed whose only item has a new link and no parsed publish time. -/
def undatedFeed : Feed :=
  ⟨[{ demoItem "Undated" "http://b" [] with PublishedParsed := none }]⟩

/-- A world whose table of files holds one row, stored under another path. -/
def oneFileWorld : World :=
  ⟨[⟨7, "http://img/x.jpg.jpg", "elsewhere/", NullString.null, BoolFrom true⟩], [], 7, 0, 0, []⟩

/-! ## Soundness and completeness of the matcher -/

theorem plusLoop_sound (s : Single) (k : List Char → Option (List Char)) (P : List Char → Prop)
    (hk : ∀ cs m, k cs = some m → m <+: cs ∧ P m) :
    ∀ cs m, plusLoop s k cs = some m →
      m <+: cs ∧ ∃ run m', run ≠ [] ∧ (∀ c ∈ run, s.accepts c = true) ∧ m = run ++ m' ∧ P m' := by
  intro cs
  induction cs with
  | nil => intro m h; simp [plusLoop] at h
  | cons c cs ih =>
    intro m h
    unfold plusLoop at h
    by_cases hc : s.accepts c = true
    · rw [if_pos hc] at h
      cases hrec : plusLoop s k cs with
      | some m1 =>
        rw [hrec] at h
        simp only [Option.map_some', Option.some.injEq] at h
        obtain ⟨hp, run, m', hne, hall, hm, hP⟩ := ih m1 hrec
        subst h
        refine ⟨List.cons_prefix_cons.mpr ⟨rfl, hp⟩, c :: run, m', by simp, ?_, by simp [hm], hP⟩
        intro x hx
        rcases List.mem_cons.mp hx with rfl | hx
        · exact hc
        · exact hall x hx
      | none =>
        rw [hrec] at h
        cases hk1 : k cs with
        | none => rw [hk1] at h; simp at h
        | some m1 =>
          rw [hk1] at h
          simp only [Option.map_some', Option.some.injEq] at h
          obtain ⟨hp, hP⟩ := hk cs m1 hk1
          subst h
          exact ⟨List.cons_prefix_cons.mpr ⟨rfl, hp⟩, [c], m1, by simp, by simpa using hc, by simp, hP⟩
    · rw [if_neg hc] at h; simp at h

theorem matchHere_sound : ∀ (re : Regexp) (cs m : List Char),
    matchHere re cs = some m → m <+: cs ∧ Lang re m := by
  intro re
  induction re with
  | nil => intro cs m h; simp [matchHere] at h; subst h; simp [Lang]
  | cons p ps ih =>
    intro cs m h
    cases p with
    | one s =>
      cases cs with
      | nil => simp [matchHere] at h
      | cons c cs =>
        unfold matchHere at h
        by_cases hc : s.accepts c = true
        · rw [if_pos hc] at h
          cases hrec : matchHere ps cs with
          | none => rw [hrec] at h; simp at h
          | some m1 =>
            rw [hrec] at h
            simp only [Option.map_some', Option.some.injEq] at h
            obtain ⟨hp, hL⟩ := ih cs m1 hrec
            subst h
            exact ⟨List.cons_prefix_cons.mpr ⟨rfl, hp⟩, c, m1, rfl, hc, hL⟩
        · rw [if_neg hc] at h; simp at h
    | plus s =>
      unfold matchHere at h
      obtain ⟨hp, run, m', hne, hall, hm, hL⟩ := plusLoop_sound s (matchHere ps) (Lang ps) ih cs m h
      exact ⟨hp, run, m', hne, hall, hm, hL⟩

theorem plusLoop_complete (s : Single) (k : List Char → Option (List Char)) :
    ∀ (run rest : List Char), run ≠ [] → (∀ c ∈ run, s.accepts c = true) →
      (k rest).isSome = true → (plusLoop s k (run ++ rest)).isSome = true := by
  intro run
  induction run with
  | nil => intro rest h; exact absurd rfl h
  | cons c run ih =>
    intro rest _ hall hk
    have hc : s.accepts c = true := hall c (by simp)
    simp only [List.cons_append, plusLoop, if_pos hc]
    cases run with
    | nil =>
      cases hrec : plusLoop s k ([] ++ rest) with
      | some m1 => simp
      | none => simpa using hk
    | cons c2 run =>
      have := ih rest (by simp) (fun x hx => hall x (List.mem_cons_of_mem _ hx)) hk
      cases hrec : plusLoop s k (c2 :: run ++ rest) with
      | some m1 => simp
      | none => rw [hrec] at this; simp at this

theorem matchHere_complete : ∀ (re : Regexp) (m rest : List Char),
    Lang re m → (matchHere re (m ++ rest)).isSome = true := by
  intro re
  induction re with
  | nil => intro m rest _; simp [matchHere]
  | cons p ps ih =>
    intro m rest h
    cases p with
    | one s =>
      obtain ⟨c, m', rfl, hc, hL⟩ := h
      have := ih m' rest hL
      simp only [List.cons_append, matchHere, if_pos hc]
      cases hrec : matchHere ps (m' ++ rest) with
      | none => rw [hrec] at this; simp at this
      | some m1 => simp
    | plus s =>
      obtain ⟨run, m', hne, hall, rfl, hL⟩ := h
      unfold matchHere
      rw [List.append_assoc]
      exact plusLoop_complete s (matchHere ps) run (m' ++ rest) hne hall (ih m' rest hL)

theorem findFirst_some (re : Regexp) : ∀ (cs m : List Char), findFirst re cs = some m →
    ∃ pre post, cs = pre ++ m ++ post ∧ Lang re m ∧
      ∀ pre' m' post', cs = pre' ++ m' ++ post' → Lang re m' → pre.length ≤ pre'.length := by
  intro cs
  induction cs with
  | nil =>
    intro m h
    obtain ⟨hp, hL⟩ := matchHere_sound re [] m h
    obtain ⟨post, hpost⟩ := hp
    exact ⟨[], post, by simpa using hpost.symm, hL, fun _ _ _ _ _ => by simp⟩
  | cons c cs ih =>
    intro m h
    unfold findFirst at h
    cases hrec : matchHere re (c :: cs) with
    | some m1 =>
      rw [hrec] at h
      simp only [Option.some.injEq] at h
      subst h
      obtain ⟨hp, hL⟩ := matchHere_sound re _ _ hrec
      obtain ⟨post, hpost⟩ := hp
      exact ⟨[], post, by simpa using hpost.symm, hL, fun _ _ _ _ _ => by simp⟩
    | none =>
      rw [hrec] at h
      obtain ⟨pre, post, hcs, hL, hmin⟩ := ih m h
      refine ⟨c :: pre, post, by simp [hcs], hL, ?_⟩
      intro pre' m' post' hsplit hL'
      cases pre' with
      | nil =>
        have := matchHere_complete re m' post' hL'
        simp only [List.nil_append] at hsplit
        rw [← hsplit, hrec] at this
        simp at this
      | cons c' pre' =>
        simp only [List.cons_append, List.cons.injEq] at hsplit
        have := hmin pre' m' post' (by simpa using hsplit.2) hL'
        simp only [List.length_cons]
        omega

theorem findFirst_none (re : Regexp) : ∀ (cs : List Char), findFirst re cs = none →
    ∀ pre m post, cs = pre ++ m ++ post → ¬ Lang re m := by
  intro cs
  induction cs with
  | nil =>
    intro h pre m post hsplit hL
    have hm : m = [] := by
      have := congrArg List.length hsplit
      simp at this
      exact List.length_eq_zero.mp (by omega)
    subst hm
    have := matchHere_complete re [] [] hL
    simp only [List.append_nil] at this
    unfold findFirst at h
    rw [h] at this
    simp at this
  | cons c cs ih =>
    intro h pre m post hsplit hL
    unfold findFirst at h
    cases hrec : matchHere re (c :: cs) with
    | some m1 => rw [hrec] at h; simp at h
    | none =>
      rw [hrec] at h
      cases pre with
      | nil =>
        have := matchHere_complete re m post hL
        simp only [List.nil_append] at hsplit
        rw [← hsplit, hrec] at this
        simp at this
      | cons c' pre =>
        simp only [List.cons_append, List.cons.injEq] at hsplit
        exact ih h pre m post (by simpa using hsplit.2) hL

/-! ## Successive matches, uniqueness of a match, numbers -/

theorem findAllFrom_head (re : Regexp) : ∀ cs : List Char,
    (findAllFrom re 0 cs).head? = findFirst re cs := by
  intro cs
  induction cs with
  | nil =>
    unfold findAllFrom findFirst
    cases matchHere re [] <;> rfl
  | cons c cs ih =>
    unfold findAllFrom findFirst
    cases matchHere re (c :: cs) with
    | some m => rfl
    | none => exact ih

theorem append_sep_unique (c : Char) : ∀ (l1 l2 t1 t2 : List Char),
    c ∉ l1 → c ∉ l2 → l1 ++ c :: t1 = l2 ++ c :: t2 → l1 = l2 ∧ t1 = t2 := by
  intro l1
  induction l1 with
  | nil =>
    intro l2 t1 t2 _ h2 h
    cases l2 with
    | nil => simpa using h
    | cons b l2 =>
      simp only [List.nil_append, List.cons_append, List.cons.injEq] at h
      exact absurd (by simp [h.1]) h2
  | cons a l1 ih =>
    intro l2 t1 t2 h1 h2 h
    cases l2 with
    | nil =>
      simp only [List.nil_append, List.cons_append, List.cons.injEq] at h
      exact absurd (by simp [h.1]) h1
    | cons b l2 =>
      simp only [List.cons_append, List.cons.injEq] at h
      obtain ⟨hl, ht⟩ := ih l2 t1 t2 (fun hm => h1 (List.mem_cons_of_mem _ hm))
        (fun hm => h2 (List.mem_cons_of_mem _ hm)) h.2
      exact ⟨by rw [h.1, hl], ht⟩

theorem Lang_unique : ∀ (re : Regexp), Unambiguous re = true →
    ∀ (m1 m2 r1 r2 : List Char), Lang re m1 → Lang re m2 → m1 ++ r1 = m2 ++ r2 → m1 = m2 := by
  intro re
  induction re with
  | nil =>
    intro _ m1 m2 _ _ h1 h2 _
    simp only [Lang] at h1 h2
    rw [h1, h2]
  | cons p ps ih =>
    intro hdet m1 m2 r1 r2 h1 h2 heq
    cases p with
    | one s =>
      obtain ⟨c1, m1', rfl, _, hL1⟩ := h1
      obtain ⟨c2, m2', rfl, _, hL2⟩ := h2
      simp only [List.cons_append, List.cons.injEq] at heq
      simp only [Unambiguous] at hdet
      rw [heq.1, ih hdet m1' m2' r1 r2 hL1 hL2 heq.2]
    | plus s =>
      obtain ⟨run1, m1', _, hall1, rfl, hL1⟩ := h1
      obtain ⟨run2, m2', _, hall2, rfl, hL2⟩ := h2
      simp only [Unambiguous, Bool.and_eq_true] at hdet
      obtain ⟨hsep, hrest⟩ := hdet
      cases ps with
      | nil => simp at hsep
      | cons q qs =>
        cases q with
        | plus _ => simp at hsep
        | one t =>
          cases t with
          | any => simp at hsep
          | cls _ => simp at hsep
          | lit c =>
            simp only [Bool.not_eq_true', Bool.not_eq_eq_eq_not, Bool.not_true] at hsep
            obtain ⟨c1, n1, rfl, hc1, _⟩ := id hL1
            obtain ⟨c2, n2, rfl, hc2, _⟩ := id hL2
            have e1 : c1 = c := by simpa [Single.accepts] using hc1
            have e2 : c2 = c := by simpa [Single.accepts] using hc2
            subst e1
            subst e2
            have hn1 : c2 ∉ run1 := fun hm => by
              have := hall1 c2 hm
              rw [hsep] at this
              exact Bool.noConfusion this
            have hn2 : c2 ∉ run2 := fun hm => by
              have := hall2 c2 hm
              rw [hsep] at this
              exact Bool.noConfusion this
            have heq' : run1 ++ c2 :: (n1 ++ r1) = run2 ++ c2 :: (n2 ++ r2) := by
              simpa [List.append_assoc] using heq
            obtain ⟨hr, ht⟩ := append_sep_unique c2 run1 run2 _ _ hn1 hn2 heq'
            have := ih hrest (c2 :: n1) (c2 :: n2) r1 r2 hL1 hL2 (by simpa using ht)
            rw [hr, this]

theorem newspreadRegex_unambiguous : Unambiguous newspreadRegex = true := by decide

theorem accepts_digit (c : Char) :
    (Single.cls [('0', '9')]).accepts c = true ↔ '0' ≤ c ∧ c ≤ '9' := by
  simp [Single.accepts]

theorem plusLoop_all (s : Single) : ∀ (run : List Char), run ≠ [] →
    (∀ c ∈ run, s.accepts c = true) → plusLoop s (matchHere []) run = some run := by
  intro run
  induction run with
  | nil => intro h; exact absurd rfl h
  | cons c run ih =>
    intro _ hall
    have hc : s.accepts c = true := hall c (by simp)
    cases run with
    | nil => simp [plusLoop, hc, matchHere]
    | cons c2 run =>
      have := ih (by simp) (fun x hx => hall x (List.mem_cons_of_mem _ hx))
      rw [plusLoop, if_pos hc, this]
      rfl

theorem findAllFrom_skip (re : Regexp) (hre : matchHere re [] = none) : ∀ cs : List Char,
    findAllFrom re cs.length cs = [] := by
  intro cs
  induction cs with
  | nil => simp [findAllFrom, hre]
  | cons c cs ih => simpa [findAllFrom] using ih

theorem Lang_impulsiv (m : List Char) :
    Lang impulsivRegex m ↔ m ≠ [] ∧ ∀ c ∈ m, '0' ≤ c ∧ c ≤ '9' := by
  constructor
  · rintro ⟨run, m', hne, hall, rfl, hL⟩
    simp only [Lang] at hL
    subst hL
    simp only [List.append_nil]
    exact ⟨hne, fun c hc => (accepts_digit c).mp (hall c hc)⟩
  · rintro ⟨hne, hall⟩
    exact ⟨m, [], hne, fun c hc => (accepts_digit c).mpr (hall c hc), by simp, rfl⟩

theorem findAll_impulsiv_number (cs : List Char) (hne : cs ≠ [])
    (hall : ∀ c ∈ cs, '0' ≤ c ∧ c ≤ '9') : findAllFrom impulsivRegex 0 cs = [cs] := by
  have hm : matchHere impulsivRegex cs = some cs := by
    unfold impulsivRegex matchHere
    exact plusLoop_all _ cs hne (fun c hc => (accepts_digit c).mpr (hall c hc))
  cases cs with
  | nil => exact absurd rfl hne
  | cons c cs =>
    rw [findAllFrom, hm]
    simp only [List.length_cons, Nat.add_sub_cancel]
    rw [findAllFrom_skip impulsivRegex (by decide) cs]

theorem findAll_impulsiv_single (cs : List Char) (h : findAllFrom impulsivRegex 0 cs = [cs]) :
    cs ≠ [] ∧ ∀ c ∈ cs, '0' ≤ c ∧ c ≤ '9' := by
  have hh : findFirst impulsivRegex cs = some cs := by
    rw [← findAllFrom_head, h]; rfl
  obtain ⟨_, _, _, hL, _⟩ := findFirst_some impulsivRegex cs cs hh
  exact (Lang_impulsiv cs).mp hL

/-! ## The dedup filter and the two hooks -/

theorem skipNews_go_iff (link : String) : ∀ ls : List String,
    skipNews.go link ls = true ↔ link ∈ ls := by
  intro ls
  induction ls with
  | nil => simp [skipNews.go]
  | cons l ls ih =>
    unfold skipNews.go
    by_cases h : l = link
    · simp [h]
    · rw [if_neg h, ih]
      simp [Ne.symm h]

theorem skipNews_iff (existingLinks : List String) (link : String) :
    skipNews existingLinks link = true ↔ link = "" ∨ link ∈ existingLinks := by
  unfold skipNews
  by_cases h : link = ""
  · simp [h]
  · rw [if_neg h, skipNews_go_iff]
    simp [h]

theorem FindAllString_one (re : Regexp) (s : String) :
    FindAllString re s 1 =
      match findFirst re s.data with
      | none => []
      | some m => [String.mk m] := by
  unfold FindAllString
  have h := findAllFrom_head re s.data
  cases hl : findAllFrom re 0 s.data with
  | nil => rw [hl] at h; rw [← h]; rfl
  | cons m rest => rw [hl] at h; rw [← h]; rfl

theorem FindAllString_all (re : Regexp) (s : String) :
    FindAllString re s (-1) = (findAllFrom re 0 s.data).map String.mk := by
  unfold FindAllString
  rfl

theorem impulsiv_test (t : String) :
    ((FindAllString impulsivRegex t (-1)).length = 1 ∧
      (FindAllString impulsivRegex t (-1)).head? = some t) ↔ IsNumber t := by
  rw [FindAllString_all]
  constructor
  · rintro ⟨hlen, hhead⟩
    apply findAll_impulsiv_single
    cases hl : findAllFrom impulsivRegex 0 t.data with
    | nil => rw [hl] at hlen; simp at hlen
    | cons m rest =>
      rw [hl] at hlen hhead
      cases rest with
      | cons _ _ => simp at hlen
      | nil =>
        simp only [List.map_cons, List.map_nil, List.head?_cons, Option.some.injEq] at hhead
        rw [← hhead]
  · rintro ⟨hne, hall⟩
    rw [findAll_impulsiv_number t.data hne hall]
    simp

/-- C4: `skipNews existingLinks link` is true exactly when `link` is empty or
equal to an element of `existingLinks`; the empty link is always skipped; and
two lists with the same elements, whatever their order and multiplicities, give
the same answer. -/
theorem C4_skipNews_spec (existingLinks : List String) (link : String) :
    (skipNews existingLinks link = true ↔ link = "" ∨ link ∈ existingLinks) ∧
    skipNews existingLinks "" = true ∧
    (∀ other : List String, (∀ l, l ∈ other ↔ l ∈ existingLinks) →
      skipNews other link = skipNews existingLinks link) := by
  refine ⟨skipNews_iff existingLinks link, (skipNews_iff existingLinks "").mpr (Or.inl rfl), ?_⟩
  intro other h
  rw [Bool.eq_iff_iff, skipNews_iff, skipNews_iff, h link]

/-- Witness of C4 on the links a, b, a against b, a. -/
theorem C4_skipNews_spec_witness :
    skipNews ["b", "a"] "b" = skipNews ["a", "b", "a"] "b" ∧
    skipNews ["a", "b", "a"] "B" = false :=
  ⟨(C4_skipNews_spec ["a", "b", "a"] "b").2.2 ["b", "a"] (by intro l; simp [or_comm]),
   by decide⟩

/-- C8: `impulsivHook` turns a title that is one non-empty run of the digits
0 to 9 into "Impulsiv - Ausgabe " followed by the title, and every other title
into "Impulsiv - " followed by the title; the new title therefore starts with
"Impulsiv - " and ends with the old title; no other field changes. -/
theorem C8_impulsivHook_title (item : Item) :
    (impulsivHook item).Title =
      (if IsNumber item.Title then "Impulsiv - Ausgabe " else "Impulsiv - ") ++ item.Title ∧
    "Impulsiv - ".data <+: (impulsivHook item).Title.data ∧
    item.Title.data <:+ (impulsivHook item).Title.data ∧
    impulsivHook item = { item with Title := (impulsivHook item).Title } := by
  have key : (impulsivHook item).Title =
      (if IsNumber item.Title then "Impulsiv - Ausgabe " else "Impulsiv - ") ++ item.Title ∧
      impulsivHook item = { item with Title := (impulsivHook item).Title } := by
    unfold impulsivHook
    by_cases h : IsNumber item.Title
    · simp only [if_pos ((impulsiv_test item.Title).mpr h), if_pos h, and_self]
    · simp only [if_neg (fun hh => h ((impulsiv_test item.Title).mp hh)), if_neg h, and_self]
  refine ⟨key.1, ?_, ?_, key.2⟩
  · rw [key.1]
    by_cases h : IsNumber item.Title
    · rw [if_pos h, String.data_append]
      exact ⟨"Ausgabe ".data ++ item.Title.data, by simp [← List.append_assoc]⟩
    · rw [if_neg h, String.data_append]
      exact ⟨item.Title.data, rfl⟩
  · rw [key.1, String.data_append]
    exact ⟨_, rfl⟩

theorem same_offset {α : Type} (pre pre' r r' : List α)
    (h : pre ++ r = pre' ++ r') (hl : pre'.length = pre.length) : r = r' := by
  have := List.append_inj h hl.symm
  exact this.2

/-- C9: after `newspreadHook` the item has exactly one enclosure and an empty
description; the address of that enclosure is the leftmost text of the content
that matches the pattern (the only match at that offset), or the empty string
when no part of the content matches; no other field changes. -/
theorem C9_newspreadHook_result (item : Item) :
    ∃ u : String,
      newspreadHook item =
        { item with Enclosures := [{ URL := u, Length := "", Type_ := "" }], Description := "" } ∧
      (newspreadHook item).Enclosures.length = 1 ∧
      (newspreadHook item).Description = "" ∧
      ((u = "" ∧ ∀ i m, ¬ MatchAt newspreadRegex item.Content.data i m) ∨
       (∃ i, MatchAt newspreadRegex item.Content.data i u.data ∧
          ∀ j m, MatchAt newspreadRegex item.Content.data j m → i ≤ j ∧ (j = i → m = u.data))) := by
  unfold newspreadHook
  rw [FindAllString_one]
  cases hf : findFirst newspreadRegex item.Content.data with
  | none =>
    refine ⟨"", rfl, rfl, rfl, Or.inl ⟨rfl, ?_⟩⟩
    rintro i m ⟨pre, post, hsplit, _, hL⟩
    exact findFirst_none newspreadRegex _ hf pre m post hsplit hL
  | some m =>
    obtain ⟨pre, post, hsplit, hL, hmin⟩ := findFirst_some newspreadRegex _ m hf
    refine ⟨String.mk m, rfl, rfl, rfl, Or.inr ⟨pre.length, ⟨pre, post, hsplit, rfl, hL⟩, ?_⟩⟩
    rintro j m' ⟨pre', post', hsplit', hj, hL'⟩
    refine ⟨hj ▸ hmin pre' m' post' hsplit' hL', ?_⟩
    intro hji
    have hlen : pre'.length = pre.length := by rw [hj, hji]
    have heq : pre ++ (m ++ post) = pre' ++ (m' ++ post') := by
      rw [← List.append_assoc, ← List.append_assoc, ← hsplit, ← hsplit']
    have := same_offset pre pre' _ _ heq hlen
    exact (Lang_unique newspreadRegex newspreadRegex_unambiguous m m' post post' hL hL' this).symm

/-! ## The database calls and saveImage -/

theorem applyHook_link (source : NewsSource) (item : Item) :
    (applyHook source item).Link = item.Link ∧
    (applyHook source item).PublishedParsed = item.PublishedParsed := by
  unfold applyHook
  split_ifs
  · exact ⟨rfl, rfl⟩
  · unfold impulsivHook
    simp only []
    split_ifs <;> exact ⟨rfl, rfl⟩
  · exact ⟨rfl, rfl⟩
  · exact ⟨rfl, rfl⟩

theorem popFault_sameTables (w : World) : SameTables w w.popFault.2 := by
  unfold World.popFault SameTables
  cases w.faults <;> simp

theorem leastFile_mem : ∀ (rows : List File) (r : File), leastFile rows = some r → r ∈ rows := by
  intro rows
  induction rows with
  | nil => intro r h; simp [leastFile] at h
  | cons a rows ih =>
    intro r h
    unfold leastFile at h
    cases hrec : leastFile rows with
    | none =>
      rw [hrec] at h
      simp only [Option.some.injEq] at h
      simp [h]
    | some m =>
      rw [hrec] at h
      simp only at h
      split_ifs at h
      · simp only [Option.some.injEq] at h; simp [h]
      · simp only [Option.some.injEq] at h
        subst h
        exact List.mem_cons_of_mem _ (ih m hrec)

theorem leastFile_none : ∀ (rows : List File), leastFile rows = none → rows = [] := by
  intro rows h
  cases rows with
  | nil => rfl
  | cons a rows =>
    unfold leastFile at h
    cases hrec : leastFile rows with
    | none => rw [hrec] at h; simp at h
    | some m => rw [hrec] at h; simp only at h; split_ifs at h

theorem dbFirstFileByName_cases (w : World) (name : String) :
    ∃ w1, SameTables w w1 ∧
      (dbFirstFileByName w name = (.error .ErrDatabase, w1) ∨
       (∃ r, dbFirstFileByName w name = (.ok r, w1) ∧
          leastFile (w.files.filter fun r => r.Name = name) = some r) ∨
       (dbFirstFileByName w name = (.error .ErrRecordNotFound, w1) ∧
          leastFile (w.files.filter fun r => r.Name = name) = none)) := by
  have hs := popFault_sameTables w
  cases hp : w.popFault with
  | mk fault w1 =>
    rw [hp] at hs
    refine ⟨w1, hs, ?_⟩
    simp only [dbFirstFileByName, hp]
    cases fault with
    | true => exact Or.inl (by simp)
    | false =>
      simp only [Bool.false_eq_true, if_false]
      rw [hs.1]
      cases hl : leastFile (w.files.filter fun r => r.Name = name) with
      | some r => exact Or.inr (Or.inl ⟨r, rfl, rfl⟩)
      | none => exact Or.inr (Or.inr ⟨rfl, rfl⟩)

theorem dbCreateFile_cases (w : World) (file : File) :
    (∃ w1, dbCreateFile w file = (.error .ErrDatabase, w1) ∧ SameTables w w1) ∨
    (∃ w1, dbCreateFile w file = (.ok { file with File := w.fileSeq + 1 }, w1) ∧
        w1.files = w.files ++ [{ file with File := w.fileSeq + 1 }] ∧ SameNews w w1 ∧
        w1.clock = w.clock) := by
  have hs := popFault_sameTables w
  cases hp : w.popFault with
  | mk fault w1 =>
    simp only [hp] at hs
    simp only [dbCreateFile, hp]
    obtain ⟨h1, h2, h3, h4, h5⟩ := hs
    cases fault with
    | true => exact Or.inl ⟨w1, by simp, h1, h2, h3, h4, h5⟩
    | false =>
      refine Or.inr ⟨{ w1 with files := w1.files ++ [{ file with File := w1.fileSeq + 1 }],
                               fileSeq := w1.fileSeq + 1 }, ?_, ?_, ⟨?_, ?_⟩, ?_⟩
      · simp only [Bool.false_eq_true, if_false, h3]
      · simp only [h1, h3]
      · exact h2
      · exact h4
      · exact h5

theorem saveImage_cases (env : Env) (w : World) (url : String) :
    ∃ res w1, saveImage env w url = (res, w1) ∧ SameNews w w1 ∧ w1.clock = w.clock ∧
      ((∃ e, res = .error e ∧ w1.files = w.files) ∨
       (∃ r, res = .ok r ∧ w1.files = w.files ∧
          leastFile (w.files.filter fun r => r.Name = env.md5hex url ++ ".jpg") = some r) ∨
       (res = .ok (newFileRow env w url) ∧ w1.files = w.files ++ [newFileRow env w url] ∧
          leastFile (w.files.filter fun r => r.Name = env.md5hex url ++ ".jpg") = none)) := by
  obtain ⟨w1, hs, h⟩ := dbFirstFileByName_cases w (env.md5hex url ++ ".jpg")
  obtain ⟨h1, h2, h3, h4, h5⟩ := hs
  rcases h with h | ⟨r, h, hl⟩ | ⟨h, hl⟩
  · exact ⟨.error .ErrDatabase, w1, by simp only [saveImage, h], ⟨h2, h4⟩, h5,
      Or.inl ⟨_, rfl, h1⟩⟩
  · exact ⟨.ok r, w1, by simp only [saveImage, h], ⟨h2, h4⟩, h5, Or.inr (Or.inl ⟨r, rfl, h1, hl⟩)⟩
  · rcases dbCreateFile_cases w1 ⟨0, env.md5hex url ++ ".jpg", NewsImageDirectory, StringFrom url,
      BoolFrom false⟩ with ⟨w2, hc, g1, g2, g3, g4, g5⟩ | ⟨w2, hc, g1, ⟨g2, g4⟩, g5⟩
    · exact ⟨.error .ErrDatabase, w2, by simp only [saveImage, h, hc], ⟨g2.trans h2, g4.trans h4⟩,
        g5.trans h5, Or.inl ⟨_, rfl, g1.trans h1⟩⟩
    · refine ⟨.ok (newFileRow env w url), w2, ?_, ⟨g2.trans h2, g4.trans h4⟩, g5.trans h5,
        Or.inr (Or.inr ⟨rfl, ?_, hl⟩)⟩
      · simp only [saveImage, h, hc, newFileRow, h3]
      · simp only [newFileRow, g1, h1, h3]

/-! ## The loop over the feed items -/

theorem resolveImage_cases (env : Env) (w : World) (p : Option Enclosure) :
    ∃ f fid w1, resolveImage env w p =
        ((StringFrom (match p with
            | none => ""
            | some e => e.URL), f, fid), w1) ∧
      SameNews w w1 ∧ w1.clock = w.clock ∧
      (p = none → f = none ∧ fid = NullInt.null ∧ w1 = w) := by
  cases p with
  | none => exact ⟨none, NullInt.null, w, rfl, ⟨rfl, rfl⟩, rfl, fun _ => ⟨rfl, rfl, rfl⟩⟩
  | some e =>
    obtain ⟨res, w1, hs, hn, hc, _⟩ := saveImage_cases env w e.URL
    cases res with
    | ok file =>
      exact ⟨some file, IntFrom file.File, w1, by simp only [resolveImage, hs], hn, hc,
        fun h => Option.noConfusion h⟩
    | error err =>
      exact ⟨none, NullInt.null, w1, by simp only [resolveImage, hs], hn, hc,
        fun h => Option.noConfusion h⟩

theorem keptItems_cons_skip (source : NewsSource) (ex : List String) (item : Item)
    (rest : List Item) (h : skipNews ex (applyHook source item).Link = true) :
    keptItems source ex (item :: rest) = keptItems source ex rest := by
  simp [keptItems, h]

theorem keptItems_cons_keep (source : NewsSource) (ex : List String) (item : Item)
    (rest : List Item) (h : ¬ skipNews ex (applyHook source item).Link = true) :
    keptItems source ex (item :: rest) = applyHook source item :: keptItems source ex rest := by
  simp [keptItems, h]

theorem feedLoop_spec (env : Env) (source : NewsSource) (ex : List String) :
    ∀ (items : List Item) (w : World) (acc : List News),
      ∃ e w1, feedLoop env source ex items w acc = (e, w1) ∧ SameNews w w1 ∧
        (∀ nn, e = .done nn → ∃ rows, nn = acc ++ rows ∧
          rows.map newsSummary = (keptItems source ex items).map (itemSummary env source)) ∧
        ((∀ i ∈ items, i.PublishedParsed ≠ none) → ∃ nn, e = .done nn) ∧
        (keptItems source ex items = [] → e = .done acc ∧ w1 = w) := by
  intro items
  induction items with
  | nil =>
    intro w acc
    exact ⟨.done acc, w, rfl, ⟨rfl, rfl⟩,
      fun nn h => ⟨[], by simpa using (LoopEnd.done.inj h).symm, rfl⟩,
      fun _ => ⟨acc, rfl⟩, fun _ => ⟨rfl, rfl⟩⟩
  | cons item rest ih =>
    intro w acc
    by_cases hskip : skipNews ex (applyHook source item).Link = true
    · obtain ⟨e, w1, hrun, hsame, hdone, htotal, hnone⟩ := ih w acc
      refine ⟨e, w1, ?_, hsame, ?_, ?_, ?_⟩
      · rw [feedLoop]
        simp only [hskip, if_true]
        exact hrun
      · rw [keptItems_cons_skip source ex item rest hskip]
        exact hdone
      · exact fun h => htotal fun i hi => h i (List.mem_cons_of_mem _ hi)
      · rw [keptItems_cons_skip source ex item rest hskip]
        exact hnone
    · obtain ⟨f, fid, w1, hres, ⟨hn1, hn2⟩, hclock, _⟩ :=
        resolveImage_cases env w (pickEnclosure (applyHook source item).Enclosures)
      cases hpub : (applyHook source item).PublishedParsed with
      | none =>
        refine ⟨.panic acc, w1, ?_, ⟨hn1, hn2⟩, ?_, ?_, ?_⟩
        · rw [feedLoop]
          simp only [hskip, hres, hpub]
          rfl
        · intro nn h; exact LoopEnd.noConfusion h
        · intro h
          have := h item (by simp)
          rw [← (applyHook_link source item).2, hpub] at this
          exact absurd rfl this
        · intro h
          rw [keptItems_cons_keep source ex item rest hskip] at h
          exact List.noConfusion h
      | some date =>
        obtain ⟨e, w2, hrun, ⟨hm1, hm2⟩, hdone, htotal, _⟩ :=
          ih { w1 with clock := w1.clock + 1 }
            (acc ++ [{ News := 0, Date := date, Created := env.Now w1.clock,
                       Title := (applyHook source item).Title,
                       Description := env.Sanitize (applyHook source item).Description,
                       NewsSourceID := source.Source, NewsSource := source,
                       Link := (applyHook source item).Link,
                       Image := StringFrom (match pickEnclosure (applyHook source item).Enclosures with
                          | none => ""
                          | some e => e.URL),
                       FileID := fid, File := f }])
        refine ⟨e, w2, ?_, ⟨hm1.trans hn1, hm2.trans hn2⟩, ?_, ?_, ?_⟩
        · rw [feedLoop]
          simp only [hskip, hres, hpub]
          exact hrun
        · intro nn h
          obtain ⟨rows, hnn, hrows⟩ := hdone nn h
          refine ⟨_ :: rows, by rw [hnn, List.append_assoc]; rfl, ?_⟩
          rw [keptItems_cons_keep source ex item rest hskip, List.map_cons, List.map_cons, hrows]
          rfl
        · exact fun h => htotal fun i hi => h i (List.mem_cons_of_mem _ hi)
        · intro h
          rw [keptItems_cons_keep source ex item rest hskip] at h
          exact List.noConfusion h

/-! ## The shape of a run and the links it stores -/

theorem popFault_fst (w : World) : w.popFault.1 = true ↔ w.faults.head? = some true := by
  unfold World.popFault
  cases w.faults <;> simp

theorem storedLinks_eq (w : World) (src : Int) : storedLinks w src = linksOf w.news src := rfl

theorem dbScanLinks_cases (w : World) (src : Int) :
    ∃ w0, SameTables w w0 ∧
      ((w.faults.head? = some true ∧ dbScanLinks w src = (.error .ErrDatabase, w0)) ∨
       (w.faults.head? ≠ some true ∧ dbScanLinks w src = (.ok (storedLinks w src), w0))) := by
  have hs := popFault_sameTables w
  have hf := popFault_fst w
  cases hp : w.popFault with
  | mk fault w0 =>
    simp only [hp] at hs hf
    refine ⟨w0, hs, ?_⟩
    simp only [dbScanLinks, hp]
    cases fault with
    | true => exact Or.inl ⟨hf.mp rfl, by simp⟩
    | false =>
      refine Or.inr ⟨fun h => Bool.noConfusion (hf.mpr h), ?_⟩
      simp only [Bool.false_eq_true, if_false, storedLinks, hs.2.1]

theorem dbSaveNews_cases (w : World) (rows : List News) :
    ∃ w2, w2.files = w.files ∧
      ((dbSaveNews w rows = (some .ErrDatabase, w2) ∧ w2.news = w.news) ∨
       (dbSaveNews w rows = (none, w2) ∧ w2.news = w.news ++ assignKeys w.newsSeq rows ∧
          uniqueLinkPerSource w.news rows = true)) := by
  have hs := popFault_sameTables w
  cases hp : w.popFault with
  | mk fault w0 =>
    simp only [hp] at hs
    obtain ⟨h1, h2, _, h4, _⟩ := hs
    simp only [dbSaveNews, hp]
    cases fault with
    | true => exact ⟨w0, h1, Or.inl ⟨by simp, h2⟩⟩
    | false =>
      cases hu : uniqueLinkPerSource w0.news rows with
      | true =>
        exact ⟨{ w0 with news := w0.news ++ assignKeys w0.newsSeq rows,
                         newsSeq := w0.newsSeq + rows.length }, h1,
          Or.inr ⟨by simp, by simp only [h2, h4], by rw [← h2]; exact hu⟩⟩
      | false => exact ⟨w0, h1, Or.inl ⟨by simp, h2⟩⟩

/-- The shape of a run whose feed was fetched: the scan of the existing links
fails, or the loop runs on the stored links of the source and then panics,
finishes empty, or finishes with a batch that is written or refused. -/
theorem parseNewsFeed_shape (env : Env) (source : NewsSource) (w : World) (feed : Feed)
    (hfeed : env.ParseURL source.URL.String = .ok feed) :
    (w.faults.head? = some true ∧ (parseNewsFeed env source w).newNews = [] ∧
      (parseNewsFeed env source w).batchWrites = 0 ∧
      (parseNewsFeed env source w).outcome = .returned (some .ErrDatabase) ∧
      SameTables w (parseNewsFeed env source w).world) ∨
    (w.faults.head? ≠ some true ∧ ∃ w0 e w1, SameTables w w0 ∧
      feedLoop env source (storedLinks w source.Source) feed.Items w0 [] = (e, w1) ∧
      ((∃ nn, e = .panic nn ∧ parseNewsFeed env source w = ⟨w1, nn, 0, .panicked⟩) ∨
       (e = .done [] ∧ parseNewsFeed env source w = ⟨w1, [], 0, .returned none⟩) ∨
       (∃ nn w2, e = .done nn ∧ nn ≠ [] ∧ w2.files = w1.files ∧
          ((parseNewsFeed env source w = ⟨w2, nn, 1, .returned (some .ErrDatabase)⟩ ∧
              w2.news = w1.news) ∨
           (parseNewsFeed env source w = ⟨w2, nn, 1, .returned none⟩ ∧
              w2.news = w1.news ++ assignKeys w1.newsSeq nn ∧
              uniqueLinkPerSource w1.news nn = true))))) := by
  obtain ⟨w0, hs, hscan | hscan⟩ := dbScanLinks_cases w source.Source
  · left
    obtain ⟨hh, hscan⟩ := hscan
    have : parseNewsFeed env source w = ⟨w0, [], 0, .returned (some .ErrDatabase)⟩ := by
      simp only [parseNewsFeed, hfeed, hscan]
    rw [this]
    exact ⟨hh, rfl, rfl, rfl, hs⟩
  · right
    obtain ⟨hh, hscan⟩ := hscan
    refine ⟨hh, w0, ?_⟩
    cases hloop : feedLoop env source (storedLinks w source.Source) feed.Items w0 [] with
    | mk e w1 =>
      refine ⟨e, w1, hs, rfl, ?_⟩
      cases e with
      | panic nn =>
        left
        exact ⟨nn, rfl, by simp only [parseNewsFeed, hfeed, hscan, hloop]⟩
      | done nn =>
        right
        cases nn with
        | nil =>
          left
          exact ⟨rfl, by simp [parseNewsFeed, hfeed, hscan, hloop]⟩
        | cons n nn =>
          right
          obtain ⟨w2, hfiles, hsave | hsave⟩ := dbSaveNews_cases w1 (n :: nn)
          · exact ⟨n :: nn, w2, rfl, by simp, hfiles, Or.inl
              ⟨by simp [parseNewsFeed, hfeed, hscan, hloop, hsave.1], hsave.2⟩⟩
          · exact ⟨n :: nn, w2, rfl, by simp, hfiles, Or.inr
              ⟨by simp [parseNewsFeed, hfeed, hscan, hloop, hsave.1], hsave.2⟩⟩

theorem keptItems_links (source : NewsSource) (ex : List String) : ∀ items : List Item,
    (keptItems source ex items).map (fun i => i.Link) =
      (items.map fun i => i.Link).filter fun l => decide (l ≠ "" ∧ l ∉ ex) := by
  intro items
  induction items with
  | nil => rfl
  | cons item rest ih =>
    have hl := (applyHook_link source item).1
    by_cases hskip : skipNews ex (applyHook source item).Link = true
    · rw [keptItems_cons_skip source ex item rest hskip, ih]
      rw [hl, skipNews_iff] at hskip
      have : ¬ (item.Link ≠ "" ∧ item.Link ∉ ex) := by tauto
      simp [this]
    · rw [keptItems_cons_keep source ex item rest hskip, List.map_cons, ih, hl]
      rw [hl, skipNews_iff] at hskip
      have : item.Link ≠ "" ∧ item.Link ∉ ex := by tauto
      simp [this]

theorem summary_links (env : Env) (source : NewsSource) (rows : List News) (kept : List Item)
    (h : rows.map newsSummary = kept.map (itemSummary env source)) :
    rows.map (fun n => n.Link) = kept.map (fun i => i.Link) ∧
    rows.map (fun n => n.Title) = kept.map (fun i => i.Title) ∧
    ∀ n ∈ rows, n.NewsSourceID = source.Source := by
  refine ⟨?_, ?_, ?_⟩
  · have := congrArg (List.map fun s => s.2.2.1) h
    simpa [List.map_map, Function.comp_def, newsSummary, itemSummary] using this
  · have := congrArg (List.map fun s => s.1) h
    simpa [List.map_map, Function.comp_def, newsSummary, itemSummary] using this
  · have := congrArg (List.map fun s => s.2.2.2.2) h
    simp only [List.map_map, Function.comp_def, newsSummary, itemSummary] at this
    intro n hn
    have h2 : n.NewsSourceID ∈ rows.map fun n => n.NewsSourceID := List.mem_map_of_mem _ hn
    rw [this] at h2
    obtain ⟨_, _, hx⟩ := List.mem_map.mp h2
    exact hx.symm

theorem linksOf_append (a b : List News) (src : Int) :
    linksOf (a ++ b) src = linksOf a src ++ linksOf b src := by
  simp [linksOf]

theorem linksOf_assignKeys (src : Int) : ∀ (rows : List News) (seq : Int),
    linksOf (assignKeys seq rows) src = linksOf rows src := by
  intro rows
  induction rows with
  | nil => intro seq; rfl
  | cons n rows ih =>
    intro seq
    have := ih (seq + 1)
    simp only [linksOf] at this ⊢
    simp only [assignKeys, List.filter_cons]
    split_ifs <;> simp [this]

theorem linksOf_own (src : Int) : ∀ (rows : List News), (∀ n ∈ rows, n.NewsSourceID = src) →
    linksOf rows src = rows.map fun n => n.Link := by
  intro rows h
  unfold linksOf
  rw [List.filter_eq_self.mpr]
  intro n hn
  simpa using h n hn

theorem linksOf_other (src other : Int) (hne : other ≠ src) : ∀ (rows : List News),
    (∀ n ∈ rows, n.NewsSourceID = src) → linksOf rows other = [] := by
  intro rows h
  unfold linksOf
  rw [List.filter_eq_nil_iff.mpr]
  · rfl
  · intro n hn
    simp [h n hn, hne.symm]

/-! ## Batch contents -/

theorem uniqueLinkPerSource_links (stored batch : List News) (src : Int)
    (hu : uniqueLinkPerSource stored batch = true)
    (hsrc : ∀ n ∈ batch, n.NewsSourceID = src) : (batch.map fun n => n.Link).Nodup := by
  unfold uniqueLinkPerSource at hu
  have hkeys := (of_decide_eq_true hu).1
  have : (batch.map fun n => (n.NewsSourceID, n.Link)) =
      (batch.map fun n => n.Link).map fun l => (src, l) := by
    rw [List.map_map]
    apply List.map_congr_left
    intro n hn
    simp [hsrc n hn]
  rw [this] at hkeys
  exact List.Nodup.of_map _ hkeys

theorem feedLoop_links (env : Env) (source : NewsSource) (ex : List String) (feed : Feed)
    (w0 w1 : World) (nn : List News)
    (h : feedLoop env source ex feed.Items w0 [] = (.done nn, w1)) :
    SameNews w0 w1 ∧ nn.map (fun n => n.Link) = newLinks ex feed ∧
    nn.map (fun n => n.Title) = (keptItems source ex feed.Items).map (fun i => i.Title) ∧
    (∀ n ∈ nn, n.NewsSourceID = source.Source) ∧
    (keptItems source ex feed.Items = [] → w1 = w0) := by
  obtain ⟨e, w1', hrun, hsame, hdone, _, hnone⟩ := feedLoop_spec env source ex feed.Items w0 []
  rw [h] at hrun
  obtain ⟨rfl, rfl⟩ := Prod.mk.inj hrun
  obtain ⟨rows, hnn, hrows⟩ := hdone nn rfl
  rw [List.nil_append] at hnn
  subst hnn
  obtain ⟨hl, ht, hs⟩ := summary_links env source nn _ hrows
  exact ⟨hsame, by rw [hl, keptItems_links]; rfl, ht, hs, fun hk => (hnone hk).2⟩

/-- What a run whose feed was fetched leaves in the table `news`: the links of
the source grow by nothing or by the new links of the feed, the latter whenever
the run returns without error; other sources keep their links. -/
theorem parseNewsFeed_links (env : Env) (source : NewsSource) (w : World) (feed : Feed)
    (hfeed : env.ParseURL source.URL.String = .ok feed) :
    (storedLinks (parseNewsFeed env source w).world source.Source = storedLinks w source.Source ∧
        ((parseNewsFeed env source w).outcome = .returned none →
          newLinks (storedLinks w source.Source) feed = [] ∧
          (parseNewsFeed env source w).newNews = []) ∨
      (storedLinks (parseNewsFeed env source w).world source.Source =
        storedLinks w source.Source ++ newLinks (storedLinks w source.Source) feed ∧
        (parseNewsFeed env source w).newNews.map (fun n => n.Link) =
          newLinks (storedLinks w source.Source) feed ∧
        (newLinks (storedLinks w source.Source) feed).Nodup)) ∧
    ∀ other, other ≠ source.Source →
      storedLinks (parseNewsFeed env source w).world other = storedLinks w other := by
  rcases parseNewsFeed_shape env source w feed hfeed with
    ⟨_, _, _, hout, hs⟩ | ⟨_, w0, e, w1, hs, hloop, hcase⟩
  · refine ⟨Or.inl ⟨?_, ?_⟩, ?_⟩
    · simp only [storedLinks, hs.2.1]
    · intro h; rw [hout] at h; simp at h
    · intro other _; simp only [storedLinks, hs.2.1]
  · have hw0 : w0.news = w.news := hs.2.1
    have hsame : w1.news = w.news := by
      obtain ⟨_, w1', hrun, hsn, _⟩ := feedLoop_spec env source (storedLinks w source.Source)
        feed.Items w0 []
      rw [hloop] at hrun
      obtain ⟨_, rfl⟩ := Prod.mk.inj hrun
      exact hsn.1.trans hw0
    rcases hcase with ⟨nn, _, hrun⟩ | ⟨he, hrun⟩ | ⟨nn, w2, he, _, _, hrun⟩
    · rw [hrun]
      refine ⟨Or.inl ⟨?_, ?_⟩, ?_⟩
      · simp only [storedLinks, hsame]
      · intro h; simp at h
      · intro other _; simp only [storedLinks, hsame]
    · rw [hrun]
      subst he
      obtain ⟨_, hl, _⟩ := feedLoop_links env source _ feed w0 w1 [] hloop
      refine ⟨Or.inl ⟨?_, ?_⟩, ?_⟩
      · simp only [storedLinks, hsame]
      · intro _; exact ⟨by simpa using hl.symm, rfl⟩
      · intro other _; simp only [storedLinks, hsame]
    · subst he
      obtain ⟨_, hl, _, hsrc, _⟩ := feedLoop_links env source _ feed w0 w1 nn hloop
      rcases hrun with ⟨hrun, hnews⟩ | ⟨hrun, hnews, huniq⟩
      · rw [hrun]
        refine ⟨Or.inl ⟨?_, ?_⟩, ?_⟩
        · simp only [storedLinks, hnews, hsame]
        · intro h; simp at h
        · intro other _; simp only [storedLinks, hnews, hsame]
      · rw [hrun]
        refine ⟨Or.inr ⟨?_, hl,
          hl ▸ uniqueLinkPerSource_links w1.news nn source.Source huniq hsrc⟩, ?_⟩
        · simp only [storedLinks_eq, hnews, hsame, linksOf_append, linksOf_assignKeys]
          rw [linksOf_own source.Source nn hsrc, hl]
          rfl
        · intro other hne
          simp only [storedLinks_eq, hnews, hsame, linksOf_append, linksOf_assignKeys]
          rw [linksOf_other source.Source other hne nn hsrc, List.append_nil]


/-- C3: when the feed is fetched, the scan of the existing links does not fail
and every item carries a publish time, the links of the entries accumulated by
`parseNewsFeed` are, in feed order, the links of the feed items that are not
empty and not in the baseline loaded at the start (the stored links of the
source); the run issues at most one batch write, and none when nothing is
queued. The same holds for the loop started on any baseline whatever. The
baseline is never extended, so a new link occurring twice is queued twice. -/
theorem C3_batch_links (env : Env) (source : NewsSource) (w : World) (feed : Feed)
    (hfeed : env.ParseURL source.URL.String = .ok feed)
    (hscan : w.faults.head? ≠ some true)
    (hpub : ∀ i ∈ feed.Items, i.PublishedParsed ≠ none) :
    (parseNewsFeed env source w).newNews.map (fun n => n.Link) =
      (feed.Items.map fun i => i.Link).filter
        (fun l => decide (l ≠ "" ∧ l ∉ storedLinks w source.Source)) ∧
    (parseNewsFeed env source w).batchWrites =
      (if (parseNewsFeed env source w).newNews = [] then 0 else 1) ∧
    (parseNewsFeed env source w).outcome ≠ .panicked ∧
    ∀ (baseline : List String) (w0 : World), ∃ rows w1,
      feedLoop env source baseline feed.Items w0 [] = (.done rows, w1) ∧
      rows.map (fun n => n.Link) =
        (feed.Items.map fun i => i.Link).filter (fun l => decide (l ≠ "" ∧ l ∉ baseline)) := by
  have hloopAll : ∀ (baseline : List String) (w0 : World), ∃ rows w1,
      feedLoop env source baseline feed.Items w0 [] = (.done rows, w1) ∧
      rows.map (fun n => n.Link) = newLinks baseline feed := by
    intro baseline w0
    obtain ⟨e, w1, hrun, _, _, htotal, _⟩ := feedLoop_spec env source baseline feed.Items w0 []
    obtain ⟨nn, rfl⟩ := htotal hpub
    exact ⟨nn, w1, hrun, (feedLoop_links env source baseline feed w0 w1 nn hrun).2.1⟩
  refine ⟨?_, ?_, ?_, hloopAll⟩
  all_goals
    rcases parseNewsFeed_shape env source w feed hfeed with
      ⟨hh, _⟩ | ⟨_, w0, e, w1, _, hloop, hcase⟩
    · exact absurd hh hscan
    obtain ⟨rows, w1', hrun, hrows⟩ := hloopAll (storedLinks w source.Source) w0
    rw [hloop] at hrun
    obtain ⟨rfl, rfl⟩ := Prod.mk.inj hrun
    rcases hcase with ⟨nn, he, _⟩ | ⟨he, hrun⟩ | ⟨nn, w2, he, hne, _, ⟨hrun, _⟩ | ⟨hrun, _⟩⟩
    · exact LoopEnd.noConfusion he
    · rw [hrun]
      cases (LoopEnd.done.inj he)
      first
        | exact hrows
        | simp
    · rw [hrun]
      cases (LoopEnd.done.inj he)
      first
        | exact hrows
        | simp [hne]
    · rw [hrun]
      cases (LoopEnd.done.inj he)
      first
        | exact hrows
        | simp [hne]

/-- Witness of C3: on an empty store, a feed carrying the link http://b twice
queues it twice. -/
theorem C3_batch_links_witness :
    (demoEnv twiceFeed).ParseURL (demoSource NullString.null).URL.String = .ok twiceFeed ∧
    emptyWorld.faults.head? ≠ some true ∧
    (∀ i ∈ twiceFeed.Items, i.PublishedParsed ≠ none) ∧
    (parseNewsFeed (demoEnv twiceFeed) (demoSource NullString.null) emptyWorld).newNews.map
      (fun n => n.Link) = ["http://b", "http://b"] :=
  ⟨rfl, by decide, by decide,
    (C3_batch_links (demoEnv twiceFeed) (demoSource NullString.null) emptyWorld twiceFeed rfl
      (by decide) (by decide)).1.trans (by decide)⟩

/-! ## Idempotence and the dedup invariant -/

theorem newLinks_mem (baseline : List String) (feed : Feed) (l : String) :
    l ∈ newLinks baseline feed ↔ (∃ i ∈ feed.Items, i.Link = l) ∧ l ≠ "" ∧ l ∉ baseline := by
  simp [newLinks]

theorem newLinks_covered (baseline extra : List String) (feed : Feed)
    (h : ∀ l ∈ newLinks baseline feed, l ∈ extra) : newLinks (baseline ++ extra) feed = [] := by
  unfold newLinks
  rw [List.filter_eq_nil_iff]
  intro l hl
  simp only [decide_eq_true_eq, not_and, not_not, List.mem_append]
  intro hne
  by_cases hb : l ∈ baseline
  · exact Or.inl hb
  · right
    apply h
    unfold newLinks
    rw [List.mem_filter]
    exact ⟨hl, by simp [hne, hb]⟩

theorem keptItems_nil_of_newLinks (source : NewsSource) (ex : List String) (feed : Feed)
    (h : newLinks ex feed = []) : keptItems source ex feed.Items = [] := by
  have := keptItems_links source ex feed.Items
  rw [show ((feed.Items.map fun i => i.Link).filter fun l => decide (l ≠ "" ∧ l ∉ ex)) =
    newLinks ex feed from rfl, h] at this
  exact List.map_eq_nil_iff.mp this

/-- A run on a store whose links for the source already cover the feed queues
nothing, writes nothing and leaves every table as it was. -/
theorem parseNewsFeed_nothing_new (env : Env) (source : NewsSource) (w : World) (feed : Feed)
    (hfeed : env.ParseURL source.URL.String = .ok feed)
    (h : newLinks (storedLinks w source.Source) feed = []) :
    (parseNewsFeed env source w).newNews = [] ∧ (parseNewsFeed env source w).batchWrites = 0 ∧
    SameTables w (parseNewsFeed env source w).world := by
  rcases parseNewsFeed_shape env source w feed hfeed with
    ⟨_, h1, h2, _, hs⟩ | ⟨_, w0, e, w1, hs, hloop, hcase⟩
  · exact ⟨h1, h2, hs⟩
  · obtain ⟨e', w1', hrun, _, _, _, hnone⟩ :=
      feedLoop_spec env source (storedLinks w source.Source) feed.Items w0 []
    rw [hloop] at hrun
    obtain ⟨rfl, rfl⟩ := Prod.mk.inj hrun
    obtain ⟨he, hw⟩ := hnone (keptItems_nil_of_newLinks source _ feed h)
    subst hw
    rcases hcase with ⟨nn, he', _⟩ | ⟨_, hrun⟩ | ⟨nn, w2, he', hne, _⟩
    · rw [he] at he'; exact LoopEnd.noConfusion he'
    · rw [hrun]; exact ⟨rfl, rfl, hs⟩
    · rw [he] at he'
      exact absurd (LoopEnd.done.inj he').symm hne

/-- C1: if a first run of `parseNewsFeed` returns without error, every entry it
queued is stored, and a second run for the same source on the same feed, started
on the world the first run left (whatever the database faults ahead), queues no
entry, issues no batch write and leaves every table as the first run left it. -/
theorem C1_second_run_adds_nothing (env : Env) (source : NewsSource) (w : World)
    (faults2 : List Bool)
    (hfirst : (parseNewsFeed env source w).outcome = .returned none) :
    (∀ n ∈ (parseNewsFeed env source w).newNews,
      n.Link ∈ storedLinks (parseNewsFeed env source w).world source.Source) ∧
    (parseNewsFeed env source
      { (parseNewsFeed env source w).world with faults := faults2 }).newNews = [] ∧
    (parseNewsFeed env source
      { (parseNewsFeed env source w).world with faults := faults2 }).batchWrites = 0 ∧
    SameTables (parseNewsFeed env source w).world
      (parseNewsFeed env source
        { (parseNewsFeed env source w).world with faults := faults2 }).world := by
  cases hP : env.ParseURL source.URL.String with
  | error err =>
    have : parseNewsFeed env source w = ⟨w, [], 0, .returned (some err)⟩ := by
      simp only [parseNewsFeed, hP]
    rw [this] at hfirst
    simp at hfirst
  | ok feed =>
    obtain ⟨hown, _⟩ := parseNewsFeed_links env source w feed hP
    have hcover : newLinks (storedLinks (parseNewsFeed env source w).world source.Source) feed
        = [] := by
      rcases hown with ⟨hst, hq⟩ | ⟨hst, _⟩
      · rw [hst]; exact (hq hfirst).1
      · rw [hst]; exact newLinks_covered _ _ feed (fun l hl => hl)
    have hstored : ∀ n ∈ (parseNewsFeed env source w).newNews,
        n.Link ∈ storedLinks (parseNewsFeed env source w).world source.Source := by
      intro n hn
      rcases hown with ⟨_, hq⟩ | ⟨hst, hq, _⟩
      · rw [(hq hfirst).2] at hn; exact absurd hn (List.not_mem_nil n)
      · rw [hst, ← hq]
        exact List.mem_append_right _ (List.mem_map_of_mem (fun n => n.Link) hn)
    exact ⟨hstored,
      parseNewsFeed_nothing_new env source
        { (parseNewsFeed env source w).world with faults := faults2 } feed hP hcover⟩

/-- Witness of C1: on an empty store the feed with an empty link and the links
http://b and http://c is ingested without error, both entries are stored, and
the second run queues nothing. -/
theorem C1_second_run_adds_nothing_witness :
    (parseNewsFeed (demoEnv plainFeed) (demoSource NullString.null) emptyWorld).outcome
      = .returned none ∧
    storedLinks (parseNewsFeed (demoEnv plainFeed) (demoSource NullString.null) emptyWorld).world 1
      = ["http://b", "http://c"] ∧
    (parseNewsFeed (demoEnv plainFeed) (demoSource NullString.null)
      { (parseNewsFeed (demoEnv plainFeed) (demoSource NullString.null) emptyWorld).world with
        faults := [] }).newNews = [] :=
  ⟨by decide, by decide,
    (C1_second_run_adds_nothing (demoEnv plainFeed) (demoSource NullString.null) emptyWorld []
      (by decide)).2.1⟩

/-- C2: on a store in which the links stored for a source are pairwise distinct
and none is empty, a run of `parseNewsFeed` for that source, whatever the feed
and however the run ends, leaves the links stored for the source pairwise
distinct and none empty; the entries queued by a run that returns without error
are all stored, and the links of every other source are left alone. -/
theorem C2_dedup_invariant (env : Env) (source : NewsSource) (w : World)
    (hnodup : (storedLinks w source.Source).Nodup)
    (hempty : "" ∉ storedLinks w source.Source) :
    (storedLinks (parseNewsFeed env source w).world source.Source).Nodup ∧
    "" ∉ storedLinks (parseNewsFeed env source w).world source.Source ∧
    ((parseNewsFeed env source w).outcome = .returned none →
      ∀ n ∈ (parseNewsFeed env source w).newNews,
        n.Link ∈ storedLinks (parseNewsFeed env source w).world source.Source) ∧
    ∀ other, other ≠ source.Source →
      storedLinks (parseNewsFeed env source w).world other = storedLinks w other := by
  cases hP : env.ParseURL source.URL.String with
  | error err =>
    have : parseNewsFeed env source w = ⟨w, [], 0, .returned (some err)⟩ := by
      simp only [parseNewsFeed, hP]
    rw [this]
    exact ⟨hnodup, hempty, fun h => by simp at h, fun _ _ => rfl⟩
  | ok feed =>
    obtain ⟨hown, hother⟩ := parseNewsFeed_links env source w feed hP
    refine ⟨?_, ?_, ?_, hother⟩
    · rcases hown with ⟨hst, _⟩ | ⟨hst, _, hnew⟩
      · rw [hst]; exact hnodup
      · rw [hst]
        refine List.Nodup.append hnodup hnew ?_
        intro l hl hl2
        exact ((newLinks_mem _ feed l).mp hl2).2.2 hl
    · rcases hown with ⟨hst, _⟩ | ⟨hst, _⟩
      · rw [hst]; exact hempty
      · rw [hst, List.mem_append]
        rintro (h | h)
        · exact hempty h
        · exact ((newLinks_mem _ feed "").mp h).2.1 rfl
    · intro hret n hn
      rcases hown with ⟨_, hq⟩ | ⟨hst, hq, _⟩
      · rw [(hq hret).2] at hn; exact absurd hn (List.not_mem_nil n)
      · rw [hst, ← hq]
        exact List.mem_append_right _ (List.mem_map_of_mem (fun n => n.Link) hn)

/-- Witness of C2: on an empty store the feed with the links http://b and
http://c is ingested without error; both entries are stored and the stored
links are pairwise distinct. -/
theorem C2_dedup_invariant_witness :
    (storedLinks emptyWorld 1).Nodup ∧ "" ∉ storedLinks emptyWorld 1 ∧
    (parseNewsFeed (demoEnv plainFeed) (demoSource NullString.null) emptyWorld).outcome
      = .returned none ∧
    storedLinks (parseNewsFeed (demoEnv plainFeed) (demoSource NullString.null) emptyWorld).world 1
      = ["http://b", "http://c"] ∧
    (storedLinks (parseNewsFeed (demoEnv plainFeed) (demoSource NullString.null)
      emptyWorld).world 1).Nodup :=
  ⟨by decide, by decide, by decide, by decide,
    (C2_dedup_invariant (demoEnv plainFeed) (demoSource NullString.null) emptyWorld
      (by decide) (by decide)).1⟩

/-- The batch queued from a feed whose new links are pairwise distinct passes
the uniqueness constraint of the table: the dedup filter already keeps every
queued link apart from the stored ones. -/
theorem distinct_batch_passes (env : Env) (source : NewsSource) (w w0 w1 : World) (feed : Feed)
    (nn : List News) (hw0 : w0.news = w.news)
    (hloop : feedLoop env source (storedLinks w source.Source) feed.Items w0 [] = (.done nn, w1))
    (hnew : (newLinks (storedLinks w source.Source) feed).Nodup) :
    uniqueLinkPerSource w1.news nn = true := by
  obtain ⟨hsame, hl, _, hsrc, _⟩ := feedLoop_links env source _ feed w0 w1 nn hloop
  have hnews : w1.news = w.news := hsame.1.trans hw0
  unfold uniqueLinkPerSource
  apply decide_eq_true
  constructor
  · have : (nn.map fun n => (n.NewsSourceID, n.Link)) =
        (nn.map fun n => n.Link).map fun l => (source.Source, l) := by
      rw [List.map_map]
      apply List.map_congr_left
      intro n hn
      simp [hsrc n hn]
    rw [this, hl]
    exact hnew.map (fun a b h => (Prod.mk.inj h).2)
  · rintro n hn m hm ⟨hms, hml⟩
    have hin : n.Link ∈ newLinks (storedLinks w source.Source) feed := by
      rw [← hl]; exact List.mem_map_of_mem (fun n => n.Link) hn
    apply ((newLinks_mem _ feed n.Link).mp hin).2.2
    rw [← hml]
    unfold storedLinks
    rw [← hnews]
    refine List.mem_map.mpr ⟨m, ?_, rfl⟩
    rw [List.mem_filter]
    exact ⟨hm, by simp [hms, hsrc n hn]⟩

/-- A feed that carries a new link twice queues it twice, and the batch is
refused by the uniqueness constraint of the table: the run returns the database
error after its one batch write and the store is left as it was. -/
theorem twiceFeed_batch_refused :
    (parseNewsFeed (demoEnv twiceFeed) (demoSource NullString.null) emptyWorld).newNews.map
      (fun n => n.Link) = ["http://b", "http://b"] ∧
    (parseNewsFeed (demoEnv twiceFeed) (demoSource NullString.null) emptyWorld).batchWrites = 1 ∧
    (parseNewsFeed (demoEnv twiceFeed) (demoSource NullString.null) emptyWorld).outcome
      = .returned (some .ErrDatabase) ∧
    (parseNewsFeed (demoEnv twiceFeed) (demoSource NullString.null) emptyWorld).world.news
      = [] := by
  decide

/-! ## Image selection, hook dispatch and the publish time -/

theorem HasSuffix_iff (s suffix : String) :
    HasSuffix s suffix = true ↔ suffix.data <:+ s.data := by
  unfold HasSuffix
  exact List.isSuffixOf_iff_suffix

theorem MatchString_iff (re : Regexp) (s : String) :
    MatchString re s = true ↔ ∃ i m, MatchAt re s.data i m := by
  unfold MatchString
  constructor
  · intro h
    cases hf : findFirst re s.data with
    | none => rw [hf] at h; simp at h
    | some m =>
      obtain ⟨pre, post, hsplit, hL, _⟩ := findFirst_some re _ m hf
      exact ⟨pre.length, m, pre, post, hsplit, rfl, hL⟩
  · rintro ⟨i, m, pre, post, hsplit, _, hL⟩
    cases hf : findFirst re s.data with
    | none => exact absurd hL (findFirst_none re _ hf pre m post hsplit)
    | some m => rfl

theorem isImageEnclosure_iff (e : Enclosure) : isImageEnclosure e = true ↔ AcceptsImage e := by
  unfold isImageEnclosure AcceptsImage
  simp only [Bool.or_eq_true, HasSuffix_iff, MatchString_iff, or_assoc]

theorem pickEnclosure_eq_find : ∀ enclosures : List Enclosure,
    pickEnclosure enclosures = enclosures.find? isImageEnclosure := by
  intro enclosures
  induction enclosures with
  | nil => rfl
  | cons e rest ih =>
    unfold pickEnclosure
    by_cases h : isImageEnclosure e = true
    · simp [h]
    · simp [h, ih]

theorem feedLoop_no_image (env : Env) (source : NewsSource) (existing : List String)
    (item : Item) (rest : List Item) (w : World) (acc : List News) (date : Time)
    (hskip : skipNews existing (applyHook source item).Link = false)
    (hpick : pickEnclosure (applyHook source item).Enclosures = none)
    (hdate : (applyHook source item).PublishedParsed = some date) :
    feedLoop env source existing (item :: rest) w acc =
      feedLoop env source existing rest { w with clock := w.clock + 1 }
        (acc ++ [{ News := 0, Date := date, Created := env.Now w.clock,
                   Title := (applyHook source item).Title,
                   Description := env.Sanitize (applyHook source item).Description,
                   NewsSourceID := source.Source, NewsSource := source,
                   Link := (applyHook source item).Link,
                   Image := StringFrom "", FileID := NullInt.null, File := none }]) := by
  rw [feedLoop]
  simp only [hskip, hpick, hdate, resolveImage]
  rfl

/-- C5 (amended): `pickEnclosure` returns the first enclosure, in list order,
whose address ends in jpg, jpeg or png (no dot is required before the suffix)
or whose declared content type contains a match of image/[a-z.]+; it returns
nothing exactly when no enclosure is of that kind, and the entry built for such
an item (after the hook dispatch) has no file, a null file identifier and the
empty string as image address. -/
theorem C5_pickEnclosure_amended (enclosures : List Enclosure) :
    (pickEnclosure enclosures = none ↔ ∀ e ∈ enclosures, ¬ AcceptsImage e) ∧
    (∀ e, pickEnclosure enclosures = some e ↔
      ∃ before after, enclosures = before ++ e :: after ∧ AcceptsImage e ∧
        ∀ x ∈ before, ¬ AcceptsImage x) ∧
    ∀ (env : Env) (source : NewsSource) (existing : List String) (item : Item)
      (rest : List Item) (w : World) (acc : List News) (date : Time),
      (applyHook source item).Enclosures = enclosures →
      skipNews existing (applyHook source item).Link = false →
      pickEnclosure enclosures = none →
      (applyHook source item).PublishedParsed = some date →
      feedLoop env source existing (item :: rest) w acc =
        feedLoop env source existing rest { w with clock := w.clock + 1 }
          (acc ++ [{ News := 0, Date := date, Created := env.Now w.clock,
                     Title := (applyHook source item).Title,
                     Description := env.Sanitize (applyHook source item).Description,
                     NewsSourceID := source.Source, NewsSource := source,
                     Link := (applyHook source item).Link,
                     Image := StringFrom "", FileID := NullInt.null, File := none }]) := by
  refine ⟨?_, ?_, ?_⟩
  · rw [pickEnclosure_eq_find, List.find?_eq_none]
    exact forall₂_congr fun e _ => not_congr (isImageEnclosure_iff e)
  · intro e
    rw [pickEnclosure_eq_find, List.find?_eq_some]
    constructor
    · rintro ⟨he, before, after, hsplit, hbefore⟩
      refine ⟨before, after, hsplit, (isImageEnclosure_iff e).mp he, ?_⟩
      intro x hx hacc
      have := hbefore x hx
      rw [(isImageEnclosure_iff x).mpr hacc] at this
      simp at this
    · rintro ⟨before, after, hsplit, he, hbefore⟩
      refine ⟨(isImageEnclosure_iff e).mpr he, before, after, hsplit, ?_⟩
      intro x hx
      have : ¬ isImageEnclosure x = true := fun h => hbefore x hx ((isImageEnclosure_iff x).mp h)
      simpa using this
  · intro env source existing item rest w acc date henc hskip hpick hdate
    exact feedLoop_no_image env source existing item rest w acc date hskip
      (by rw [henc]; exact hpick) hdate

/-- Witness of C5 (amended): of the enclosures x.gif and y.png the second is
picked, being the first accepted one. -/
theorem C5_pickEnclosure_amended_witness :
    ∃ before after,
      [(⟨"x.gif", "", ""⟩ : Enclosure), ⟨"y.png", "", ""⟩] = before ++ ⟨"y.png", "", ""⟩ :: after ∧
      AcceptsImage ⟨"y.png", "", ""⟩ ∧ ∀ x ∈ before, ¬ AcceptsImage x :=
  ((C5_pickEnclosure_amended [⟨"x.gif", "", ""⟩, ⟨"y.png", "", ""⟩]).2.1 ⟨"y.png", "", ""⟩).mp
    (by decide)

/-- C5 fails as stated: an enclosure whose address ends in jpg without a dot,
with no content type, is picked by the code, while no enclosure satisfies the
condition of the specification. -/
theorem C5_counterexample :
    pickEnclosure [⟨"https://host/photojpg", "", ""⟩] = some ⟨"https://host/photojpg", "", ""⟩ ∧
    specPickImage [⟨"https://host/photojpg", "", ""⟩] = none ∧
    specIsImage ⟨"https://host/photojpg", "", ""⟩ = false := by
  decide

/-- C7 (amended): the hook named "newspread" runs `newspreadHook`, the hook
named "impulsivHook" runs `impulsivHook`, and a null hook or any other name,
"impulsiv" included, leaves the item as it is; the dispatch comes before the
skip check, and the queued entries are built from the items it returns. -/
theorem C7_hook_dispatch_amended (env : Env) (source : NewsSource) (item : Item) :
    (source.Hook = StringFrom "newspread" → applyHook source item = newspreadHook item) ∧
    (source.Hook = StringFrom "impulsivHook" → applyHook source item = impulsivHook item) ∧
    (source.Hook.Valid = false ∨
        (source.Hook.String ≠ "newspread" ∧ source.Hook.String ≠ "impulsivHook") →
      applyHook source item = item) ∧
    (∀ (existing : List String) (rest : List Item) (w : World) (acc : List News),
      skipNews existing (applyHook source item).Link = true →
      feedLoop env source existing (item :: rest) w acc =
        feedLoop env source existing rest w acc) ∧
    ∀ (existing : List String) (items : List Item) (w : World),
      (∀ i ∈ items, i.PublishedParsed ≠ none) →
      ∃ rows w1, feedLoop env source existing items w [] = (.done rows, w1) ∧
        rows.map newsSummary =
          ((items.map (applyHook source)).filter fun i => !skipNews existing i.Link).map
            (itemSummary env source) := by
  refine ⟨?_, ?_, ?_, ?_, ?_⟩
  · intro h
    simp [applyHook, h, StringFrom, NewspreadHook]
  · intro h
    simp [applyHook, h, StringFrom, NewspreadHook, ImpulsivHook]
  · rintro (h | ⟨h1, h2⟩)
    · simp [applyHook, h]
    · simp [applyHook, h1, h2, NewspreadHook, ImpulsivHook]
  · intro existing rest w acc hskip
    rw [feedLoop]
    simp only [hskip, if_true]
  · intro existing items w hpub
    obtain ⟨e, w1, hrun, _, hdone, htotal, _⟩ := feedLoop_spec env source existing items w []
    obtain ⟨nn, rfl⟩ := htotal hpub
    obtain ⟨rows, hnn, hrows⟩ := hdone nn rfl
    rw [List.nil_append] at hnn
    subst hnn
    exact ⟨nn, w1, hrun, hrows⟩

/-- Witness of C7 (amended): under the hook "impulsivHook" the new item titled
123 is queued as "Impulsiv - Ausgabe 123". -/
theorem C7_hook_dispatch_amended_witness :
    (demoSource (StringFrom "impulsivHook")).Hook = StringFrom "impulsivHook" ∧
    applyHook (demoSource (StringFrom "impulsivHook")) (demoItem "123" "http://b" []) =
      impulsivHook (demoItem "123" "http://b" []) ∧
    (parseNewsFeed (demoEnv issueFeed) (demoSource (StringFrom "impulsivHook"))
      emptyWorld).newNews.map (fun n => n.Title) = ["Impulsiv - Ausgabe 123"] :=
  ⟨rfl,
    (C7_hook_dispatch_amended (demoEnv issueFeed) (demoSource (StringFrom "impulsivHook"))
      (demoItem "123" "http://b" [])).2.1 rfl,
    by decide⟩

/-- C7 fails as stated: under the hook name "impulsiv" the code applies no
transform, so the new item titled 123 is queued with the title 123, whereas the
dispatch of the specification would queue "Impulsiv - Ausgabe 123". -/
theorem C7_counterexample :
    applyHook (demoSource (StringFrom "impulsiv")) (demoItem "123" "http://b" []) =
      demoItem "123" "http://b" [] ∧
    (specApplyHook (demoSource (StringFrom "impulsiv")) (demoItem "123" "http://b" [])).Title =
      "Impulsiv - Ausgabe 123" ∧
    (parseNewsFeed (demoEnv issueFeed) (demoSource (StringFrom "impulsiv"))
      emptyWorld).newNews.map (fun n => n.Title) = ["123"] ∧
    (parseNewsFeed (demoEnv issueFeed) (demoSource (StringFrom "impulsiv"))
      emptyWorld).newNews.map (fun n => n.Title) ≠ ["Impulsiv - Ausgabe 123"] := by
  decide

/-- C10: on a feed whose only item has a new link and no parsed publish time,
`parseNewsFeed` panics on reading the publish time and never reaches the batch
write. -/
theorem C10_undated_item_panics :
    (∀ i ∈ undatedFeed.Items, i.PublishedParsed = none ∧ i.Link = "http://b") ∧
    (parseNewsFeed (demoEnv undatedFeed) (demoSource NullString.null) emptyWorld).outcome
      = .panicked ∧
    (parseNewsFeed (demoEnv undatedFeed) (demoSource NullString.null) emptyWorld).batchWrites
      = 0 ∧
    (parseNewsFeed (demoEnv undatedFeed) (demoSource NullString.null) emptyWorld).world.news
      = [] := by
  decide

/-! ## Image registration -/

theorem filter_name_mem (files : List File) (name : String) (r : File) :
    r ∈ files.filter (fun x => decide (x.Name = name)) ↔ r ∈ files ∧ r.Name = name := by
  simp [List.mem_filter]

theorem unique_by_name (files : List File) (hnames : (files.map fun r => r.Name).Nodup)
    (a b : File) (ha : a ∈ files) (hb : b ∈ files) (h : a.Name = b.Name) : a = b :=
  List.inj_on_of_nodup_map hnames ha hb h

/-- C6: on a table of files with pairwise distinct names, two successive calls
of `saveImage` for the same address that both succeed return the same row, the
second call creates nothing, and names stay pairwise distinct. The row is named
by the hash rendering of the address followed by ".jpg"; any row of that name,
whatever its path, is returned instead of creating one, and a row is created
(under the news image directory, not yet downloaded) only when no row has that
name. -/
theorem C6_saveImage_dedup (env : Env) (w w1 w2 : World) (url : String) (r1 r2 : File)
    (hnames : (w.files.map fun r => r.Name).Nodup)
    (h1 : saveImage env w url = (.ok r1, w1))
    (h2 : saveImage env w1 url = (.ok r2, w2)) :
    r2 = r1 ∧ w2.files = w1.files ∧
    (w1.files.map fun r => r.Name).Nodup ∧ (w2.files.map fun r => r.Name).Nodup ∧
    r1.Name = env.md5hex url ++ ".jpg" ∧ r1 ∈ w1.files ∧
    (∀ r ∈ w.files, r.Name = env.md5hex url ++ ".jpg" → r1 = r ∧ w1.files = w.files) ∧
    ((∀ r ∈ w.files, r.Name ≠ env.md5hex url ++ ".jpg") →
      w1.files = w.files ++ [r1] ∧ r1 = newFileRow env w url) := by
  -- the first call
  obtain ⟨res, w1', hs, _, _, hcase⟩ := saveImage_cases env w url
  rw [h1] at hs
  obtain ⟨rfl, rfl⟩ := Prod.mk.inj hs
  have first : r1.Name = env.md5hex url ++ ".jpg" ∧ r1 ∈ w1.files ∧
      (w1.files.map fun r => r.Name).Nodup ∧
      (∀ r ∈ w.files, r.Name = env.md5hex url ++ ".jpg" → r1 = r ∧ w1.files = w.files) ∧
      ((∀ r ∈ w.files, r.Name ≠ env.md5hex url ++ ".jpg") →
        w1.files = w.files ++ [r1] ∧ r1 = newFileRow env w url) := by
    rcases hcase with ⟨e, he, _⟩ | ⟨r, hr, hfiles, hl⟩ | ⟨hr, hfiles, hl⟩
    · exact Except.noConfusion he
    · cases (Except.ok.inj hr)
      have hm := (filter_name_mem _ _ _).mp (leastFile_mem _ _ hl)
      refine ⟨hm.2, hfiles ▸ hm.1, hfiles ▸ hnames, ?_, ?_⟩
      · intro r hr hn
        exact ⟨unique_by_name w.files hnames r1 r hm.1 hr (hm.2.trans hn.symm), hfiles⟩
      · intro hno
        exact absurd hm.2 (hno r1 hm.1)
    · cases (Except.ok.inj hr)
      have hnone : ∀ r ∈ w.files, r.Name ≠ env.md5hex url ++ ".jpg" := by
        intro r hr hn
        have := (filter_name_mem _ _ _).mpr ⟨hr, hn⟩
        rw [leastFile_none _ hl] at this
        exact absurd this (List.not_mem_nil r)
      refine ⟨rfl, by rw [hfiles]; simp, ?_, ?_, ?_⟩
      · rw [hfiles, List.map_append, List.nodup_append]
        refine ⟨hnames, by simp, ?_⟩
        intro n hn hn2
        obtain ⟨r, hr, rfl⟩ := List.mem_map.mp hn
        simp only [List.map_cons, List.map_nil, List.mem_singleton] at hn2
        exact hnone r hr hn2
      · intro r hr hn
        exact absurd hn (hnone r hr)
      · intro _
        exact ⟨hfiles, rfl⟩
  obtain ⟨hname, hmem, hnodup, hfound, hnew⟩ := first
  -- the second call
  obtain ⟨res, w2', hs, _, _, hcase⟩ := saveImage_cases env w1 url
  rw [h2] at hs
  obtain ⟨rfl, rfl⟩ := Prod.mk.inj hs
  have second : r2 = r1 ∧ w2.files = w1.files := by
    rcases hcase with ⟨e, he, _⟩ | ⟨r, hr, hfiles, hl⟩ | ⟨_, _, hl⟩
    · exact Except.noConfusion he
    · cases (Except.ok.inj hr)
      have hm := (filter_name_mem _ _ _).mp (leastFile_mem _ _ hl)
      exact ⟨unique_by_name w1.files hnodup r2 r1 hm.1 hmem (hm.2.trans hname.symm), hfiles⟩
    · have := (filter_name_mem _ _ _).mpr ⟨hmem, hname⟩
      rw [leastFile_none _ hl] at this
      exact absurd this (List.not_mem_nil r1)
  exact ⟨second.1, second.2, hnodup, second.2 ▸ hnodup, hname, hmem, hfound, hnew⟩

/-- Witness of C6: with a row of the wanted name stored under another path,
both calls succeed, return that row and create nothing. -/
theorem C6_saveImage_dedup_witness :
    (oneFileWorld.files.map fun r => r.Name).Nodup ∧
    ∃ r1 w1, saveImage (demoEnv issueFeed) oneFileWorld "http://img/x.jpg" = (.ok r1, w1) ∧
      saveImage (demoEnv issueFeed) w1 "http://img/x.jpg" = (.ok r1, w1) ∧
      r1.Path = "elsewhere/" ∧ w1.files = oneFileWorld.files :=
  ⟨by decide,
    ⟨7, "http://img/x.jpg.jpg", "elsewhere/", NullString.null, BoolFrom true⟩, oneFileWorld,
    rfl, rfl, rfl,
    (C6_saveImage_dedup (demoEnv issueFeed) oneFileWorld oneFileWorld oneFileWorld
      "http://img/x.jpg"
      ⟨7, "http://img/x.jpg.jpg", "elsewhere/", NullString.null, BoolFrom true⟩
      ⟨7, "http://img/x.jpg.jpg", "elsewhere/", NullString.null, BoolFrom true⟩
      (by decide) rfl rfl).2.1⟩

/-! ## Runs that panic, and calls that succeed -/

theorem feedLoop_panics (env : Env) (source : NewsSource) (ex : List String) :
    ∀ (items : List Item) (w : World) (acc : List News),
      (∃ i ∈ items, i.PublishedParsed = none ∧ skipNews ex i.Link = false) →
      ∃ nn w1, feedLoop env source ex items w acc = (.panic nn, w1) := by
  intro items
  induction items with
  | nil => rintro w acc ⟨i, hi, _⟩; exact absurd hi (List.not_mem_nil i)
  | cons item rest ih =>
    rintro w acc ⟨i, hi, hnone, hkeep⟩
    obtain ⟨hlink, hpub⟩ := applyHook_link source item
    by_cases hskip : skipNews ex (applyHook source item).Link = true
    · have hrest : i ∈ rest := by
        rcases List.mem_cons.mp hi with rfl | h
        · rw [hlink, hkeep] at hskip; exact Bool.noConfusion hskip
        · exact h
      obtain ⟨nn, w1, hrun⟩ := ih w acc ⟨i, hrest, hnone, hkeep⟩
      refine ⟨nn, w1, ?_⟩
      rw [feedLoop]
      simp only [hskip, if_true]
      exact hrun
    · obtain ⟨f, fid, w1, hres, _⟩ :=
        resolveImage_cases env w (pickEnclosure (applyHook source item).Enclosures)
      cases hdate : (applyHook source item).PublishedParsed with
      | none =>
        refine ⟨acc, w1, ?_⟩
        rw [feedLoop]
        simp only [hskip, hres, hdate]
        rfl
      | some date =>
        have hrest : i ∈ rest := by
          rcases List.mem_cons.mp hi with rfl | h
          · rw [hpub, hnone] at hdate; exact Option.noConfusion hdate
          · exact h
        obtain ⟨nn, w2, hrun⟩ := ih { w1 with clock := w1.clock + 1 }
          (acc ++ [{ News := 0, Date := date, Created := env.Now w1.clock,
                     Title := (applyHook source item).Title,
                     Description := env.Sanitize (applyHook source item).Description,
                     NewsSourceID := source.Source, NewsSource := source,
                     Link := (applyHook source item).Link,
                     Image := StringFrom (match pickEnclosure (applyHook source item).Enclosures with
                        | none => ""
                        | some e => e.URL),
                     FileID := fid, File := f }]) ⟨i, hrest, hnone, hkeep⟩
        refine ⟨nn, w2, ?_⟩
        rw [feedLoop]
        simp only [hskip, hres, hdate]
        exact hrun

/-- Whenever the feed holds an item with a new link and no parsed publish time,
the run panics: nothing is written, whatever else the feed holds. -/
theorem parseNewsFeed_panics (env : Env) (source : NewsSource) (w : World) (feed : Feed)
    (hfeed : env.ParseURL source.URL.String = .ok feed)
    (hscan : w.faults.head? ≠ some true)
    (hitem : ∃ i ∈ feed.Items, i.PublishedParsed = none ∧
      skipNews (storedLinks w source.Source) i.Link = false) :
    (parseNewsFeed env source w).outcome = .panicked ∧
    (parseNewsFeed env source w).batchWrites = 0 ∧
    (parseNewsFeed env source w).world.news = w.news := by
  rcases parseNewsFeed_shape env source w feed hfeed with
    ⟨hh, _⟩ | ⟨_, w0, e, w1, hs, hloop, hcase⟩
  · exact absurd hh hscan
  · obtain ⟨nn, w1', hrun⟩ := feedLoop_panics env source _ feed.Items w0 [] hitem
    obtain ⟨_, _, hrun2, hsame, _⟩ :=
      feedLoop_spec env source (storedLinks w source.Source) feed.Items w0 []
    rw [hloop] at hrun hrun2
    obtain ⟨rfl, rfl⟩ := Prod.mk.inj hrun
    obtain ⟨_, rfl⟩ := Prod.mk.inj hrun2
    rcases hcase with ⟨nn', _, hr⟩ | ⟨he, _⟩ | ⟨nn', w2, he, _⟩
    · rw [hr]
      exact ⟨rfl, rfl, hsame.1.trans hs.2.1⟩
    · exact LoopEnd.noConfusion he
    · exact LoopEnd.noConfusion he

/-- Without database faults `saveImage` succeeds. -/
theorem saveImage_succeeds (env : Env) (w : World) (url : String) (h : w.faults = []) :
    ∃ r w1, saveImage env w url = (.ok r, w1) := by
  have hp : w.popFault = (false, w) := by simp [World.popFault, h]
  cases hl : leastFile (w.files.filter fun r => r.Name = env.md5hex url ++ ".jpg") with
  | some r => exact ⟨r, w, by simp [saveImage, dbFirstFileByName, hp, hl]⟩
  | none => exact ⟨_, _, by simp [saveImage, dbFirstFileByName, dbCreateFile, hp, hl]; exact ⟨rfl, rfl⟩⟩

end Campus
